import Mathlib

/-!
# Verification of the FreeCell rules engine

A shallow embedding of the FreeCell playing-field engine (`freecell.py`) and
of the undo/redo history manager of the game driver (`freecell_game.py`),
together with proofs and refutations of the specified properties.

Representation choices:
* A python `stack` (used for foundation piles and tableau columns) is embedded
  as a `List Card` whose *head* is the top of the stack: `push` is `cons`,
  `pop` takes the head, `top()` is `head?`, and `reversed(t)` (iteration from
  the top) is plain left-to-right traversal of the list.
* The reserve is a `List (Option Card)` of length 4 in well-formed fields.
* Python machine integers are embedded as `Nat` (the only subtractions taken
  are guarded and never go below zero on well-formed inputs); `sweep_step`'s
  `left` counter, which python may drive negative, is embedded as `Int`.
* A python method that can raise is embedded as a function into `Except`;
  since the methods mutate `self`, a raising method returns the *state at the
  moment of the raise* alongside the error, so that partial mutation before
  an exception is observable.  `assert` statements are not modelled (they are
  disabled under `python -O`; in every execution examined below they pass).
-/

inductive Face where
  | club | heart | spade | diamond
deriving DecidableEq, Repr

inductive CardColor where
  | red | black
deriving DecidableEq, Repr

/-- `Card.COLORS`: clubs and spades are black, hearts and diamonds are red. -/
def Face.color : Face → CardColor
  | .club => .black
  | .heart => .red
  | .spade => .black
  | .diamond => .red

/-- Position of a face in `Card.FACES = ('club', 'heart', 'spade', 'diamond')`,
as computed by `Card.get_index`. -/
def Face.index : Face → Nat
  | .club => 0
  | .heart => 1
  | .spade => 2
  | .diamond => 3

/-- A playing card: a face (suit) and a value (rank 1–13). -/
structure Card where
  face : Face
  value : Nat
deriving DecidableEq, Repr

def Card.color (c : Card) : CardColor := c.face.color

def Card.faceIndex (c : Card) : Nat := c.face.index

/-- The two recoverable errors raised by the engine. -/
inductive MoveErr where
  | invalidMove
  | moveFromEmpty
deriving DecidableEq, Repr

/-- `FreeCell` field state: 4 reserve slots, 4 foundation piles (indexed by
`Face.index`), 8 tableau columns.  Stacks keep their top at the list head. -/
structure FreeCell where
  reserve : List (Option Card)
  foundation : List (List Card)
  tableau : List (List Card)
deriving DecidableEq, Repr

instance : Inhabited FreeCell := ⟨⟨[], [], []⟩⟩

def reserveAt (f : FreeCell) (i : Nat) : Option Card := f.reserve.getD i none

def foundationAt (f : FreeCell) (i : Nat) : List Card := f.foundation.getD i []

def tableauAt (f : FreeCell) (i : Nat) : List Card := f.tableau.getD i []

/-- `FreeCell.can_top`: card `a` may be placed on card `b` on the tableau. -/
def canTop (a b : Card) : Bool :=
  a.color ≠ b.color && a.value + 1 == b.value

/-- `FreeCell.can_move_to_tableau`: card `c` may be moved into tableau slot `i`. -/
def canMoveToTableau (f : FreeCell) (c : Card) (i : Nat) : Bool :=
  match tableauAt f i with
  | [] => true
  | t :: _ => canTop c t

/-- `FreeCell.can_move_to_foundation`: an ace may start an empty pile of its
suit; otherwise the pile's top must be exactly one below. -/
def canMoveToFoundation (f : FreeCell) (c : Card) : Bool :=
  match foundationAt f c.faceIndex with
  | [] => c.value == 1
  | t :: _ => t.value + 1 == c.value

/-- The helper `get_value` inside `should_move_to_foundation`: top rank of a
foundation pile, `0` if the pile is empty. -/
def getValue (f : FreeCell) (i : Nat) : Nat :=
  match foundationAt f i with
  | [] => 0
  | t :: _ => t.value

/-- `FreeCell.should_move_to_foundation`: the safe-autoplay heuristic. -/
def shouldMoveToFoundation (f : FreeCell) (c : Card) : Bool :=
  if !canMoveToFoundation f c then false
  else
    let minBlack := min (getValue f (Face.index .spade)) (getValue f (Face.index .club))
    let minRed := min (getValue f (Face.index .heart)) (getValue f (Face.index .diamond))
    if c.color = .black then
      c.value ≤ min (minBlack + 3) (minRed + 2)
    else
      c.value ≤ min (minBlack + 2) (minRed + 3)

/-- `FreeCell.count_group`: length of the maximal valid run at the top of
tableau slot `i` (adjacent pairs satisfying `can_top`, read from the top). -/
def countGroupList : List Card → Nat
  | [] => 0
  | [_] => 1
  | a :: b :: rest => if canTop a b then 1 + countGroupList (b :: rest) else 1

def countGroup (f : FreeCell) (i : Nat) : Nat := countGroupList (tableauAt f i)

/-- `self.reserve.count(None)` — number of free reserve slots. -/
def reserveFreeCount (f : FreeCell) : Nat := f.reserve.count none

/-- `sum(1 for t in self.tableau if t.empty())` — number of empty columns. -/
def emptyColumnCount (f : FreeCell) : Nat := (f.tableau.filter List.isEmpty).length

/-- `FreeCell.move_capacity`: largest group that may be moved from slot `a` to
slot `b`, given the free reserve slots and free columns; raises
`MoveFromEmpty` when slot `a` is empty. -/
def moveCapacity (f : FreeCell) (a b : Nat) : Except MoveErr Nat :=
  if tableauAt f a = [] then .error .moveFromEmpty
  else
    let toEmpty := if tableauAt f b = [] then 1 else 0
    .ok (min (countGroup f a)
      ((1 + reserveFreeCount f) * 2 ^ (emptyColumnCount f - toEmpty)))

/-- The successful effect of `FreeCell.move_to_foundation`: push `c` on the
pile of its suit. -/
def pushFoundation (f : FreeCell) (c : Card) : FreeCell :=
  { f with foundation := f.foundation.set c.faceIndex (c :: foundationAt f c.faceIndex) }

/-- `FreeCell.move_to_foundation`, with its `InvalidMove` check. -/
def moveToFoundation (f : FreeCell) (c : Card) : Except MoveErr FreeCell :=
  if canMoveToFoundation f c then .ok (pushFoundation f c) else .error .invalidMove

/-- `FreeCell.move_to_tableau`: push `c` on column `i` after the
`can_move_to_tableau` check (the `is_free` assert is not modelled). -/
def moveToTableau (f : FreeCell) (c : Card) (i : Nat) : Except MoveErr FreeCell :=
  if canMoveToTableau f c i then
    .ok { f with tableau := f.tableau.set i (c :: tableauAt f i) }
  else .error .invalidMove

/-- The push phase of `FreeCell.move_tableau_group`:
`[self.move_to_tableau(c, b) for c in reversed(cards)]`.  On an exception the
state reached so far is reported alongside the error. -/
def pushGroup (f : FreeCell) (cs : List Card) (b : Nat) : Except (MoveErr × FreeCell) FreeCell :=
  match cs with
  | [] => .ok f
  | c :: rest =>
    match moveToTableau f c b with
    | .ok f1 => pushGroup f1 rest b
    | .error e => .error (e, f)

/-- `FreeCell.move_tableau_group`: validate `n`, then pop the top `n` cards of
slot `a` and push them one by one onto slot `b`.  The error value carries the
state at the moment of the raise. -/
def moveTableauGroup (f : FreeCell) (a b n : Nat) : Except (MoveErr × FreeCell) FreeCell :=
  if n = 0 then .error (.invalidMove, f)
  else
    match moveCapacity f a b with
    | .error e => .error (e, f)
    | .ok cap =>
      if cap < n then .error (.invalidMove, f)
      else
        let ta := tableauAt f a
        let f1 : FreeCell := { f with tableau := f.tableau.set a (ta.drop n) }
        pushGroup f1 (ta.take n).reverse b

/-- `FreeCell.reserve_free`: `not all(self.reserve)` — some slot is `None`. -/
def reserveFree (f : FreeCell) : Bool := !(f.reserve.all Option.isSome)

/-- `FreeCell.move_to_reserve`: place `c` in the first free reserve slot
(the `is_free` assert is not modelled). -/
def moveToReserve (f : FreeCell) (c : Card) : Except MoveErr FreeCell :=
  if reserveFree f then
    .ok { f with reserve := f.reserve.set (f.reserve.findIdx Option.isNone) (some c) }
  else .error .invalidMove

/-- `FreeCell.move_from_reserve`: take the card out of slot `i`, or raise
`MoveFromEmpty`. -/
def moveFromReserve (f : FreeCell) (i : Nat) : Except MoveErr (Card × FreeCell) :=
  match reserveAt f i with
  | none => .error .moveFromEmpty
  | some c => .ok (c, { f with reserve := f.reserve.set i none })

/-- `FreeCell.won`: every tableau column is empty. -/
def wonField (f : FreeCell) : Bool := f.tableau.all List.isEmpty

/-- `make_deck()`: `itertools.product(Card.FACES, Card.VALUES)` — for each
face in order club, heart, spade, diamond, the values 1 through 13. -/
def makeDeck : List Card :=
  ([.club, .heart, .spade, .diamond] : List Face).flatMap
    fun s => (List.range 13).map fun v => ⟨s, v + 1⟩

/-- `FreeCell.fill_tableau`: deal the deck round-robin across the columns
(`itertools.cycle`), pushing each card on the next column. -/
def fillTableau (t : List (List Card)) (deck : List Card) (i : Nat) : List (List Card) :=
  match deck with
  | [] => t
  | c :: rest => fillTableau (t.set i (c :: t.getD i [])) rest ((i + 1) % t.length)

/-- `FreeCell.__init__`: empty reserve, empty piles, deck dealt round-robin. -/
def initField (deck : List Card) : FreeCell :=
  { reserve := List.replicate 4 none
    foundation := List.replicate 4 []
    tableau := fillTableau (List.replicate 8 []) deck 0 }

/-! ## Spec-side formulations -/

/-- Modelled from the spec: `should_auto_advance`'s threshold, in the spec's
words — `minBlack` is the minimum of the top-rank-or-0 of the two black piles
(clubs and spades), `minRed` likewise for the red piles (hearts and diamonds);
the threshold is `min(minBlack+3, minRed+2)` for a black card and
`min(minBlack+2, minRed+3)` for a red card. -/
def specAutoThreshold (f : FreeCell) (c : Card) : Nat :=
  let minBlack := min (getValue f (Face.index .spade)) (getValue f (Face.index .club))
  let minRed := min (getValue f (Face.index .heart)) (getValue f (Face.index .diamond))
  if c.color = .black then min (minBlack + 3) (minRed + 2)
  else min (minBlack + 2) (minRed + 3)

/-! ## C4 — the safe-autoplay heuristic -/

/-- C4: `should_move_to_foundation c` is true iff `can_move_to_foundation c`
holds and `c`'s rank is at most the spec's threshold; and with all four
foundation piles empty it returns true for the ace of every suit. -/
theorem claim_C4 :
    (∀ f c, shouldMoveToFoundation f c =
      (canMoveToFoundation f c && decide (c.value ≤ specAutoThreshold f c))) ∧
    (∀ f, (∀ i, foundationAt f i = []) →
      ∀ fc : Face, shouldMoveToFoundation f ⟨fc, 1⟩ = true) := by
  constructor
  · intro f c
    by_cases hc : canMoveToFoundation f c <;>
      by_cases hb : c.color = CardColor.black <;>
        simp [shouldMoveToFoundation, specAutoThreshold, hc, hb, Nat.le_min]
  · intro f h fc
    have hv : ∀ i, getValue f i = 0 := by intro i; simp [getValue, h]
    have hc : canMoveToFoundation f ⟨fc, 1⟩ = true := by
      simp [canMoveToFoundation, Card.faceIndex, h]
    simp [shouldMoveToFoundation, hc, hv]

/-- Witness for C4 at a concrete input: with every pile empty, the ace of
spades auto-advances. -/
theorem claim_C4_witness :
    shouldMoveToFoundation ⟨[], [], []⟩ ⟨Face.spade, 1⟩ = true :=
  claim_C4.2 ⟨[], [], []⟩ (fun i => by cases i <;> rfl) Face.spade

/-! ## C5 — the move-capacity formula -/

/-- C5: for a non-empty source column, `move_capacity src dest` is the minimum
of `count_group src` and `(1 + number of empty reserve slots) *
2 ^ (number of empty tableau columns - (1 if dest is empty else 0))`. -/
theorem claim_C5 : ∀ f a b, tableauAt f a ≠ [] →
    moveCapacity f a b = Except.ok (min (countGroup f a)
      ((1 + (f.reserve.filter Option.isNone).length) *
        2 ^ ((f.tableau.filter (fun t => t = [])).length -
          (if tableauAt f b = [] then 1 else 0)))) := by
  intro f a b ha
  have hres : (f.reserve.filter Option.isNone).length = reserveFreeCount f := by
    rw [reserveFreeCount, List.count, List.countP_eq_length_filter]
    congr 1
    exact List.filter_congr (fun o _ => by cases o <;> simp)
  have htab : (f.tableau.filter (fun t => t = [])).length = emptyColumnCount f := by
    rw [emptyColumnCount]
    congr 1
    exact List.filter_congr (fun t _ => by cases t <;> simp)
  rw [hres, htab, moveCapacity, if_neg ha]

/-- A field with 2 free reserve slots, a 6-card ordered run on column 0, a
non-empty destination column 1, and exactly one empty column. -/
def capacityField : FreeCell :=
  { reserve := [some ⟨.club, 13⟩, some ⟨.heart, 13⟩, none, none]
    foundation := List.replicate 4 []
    tableau :=
      [[⟨.spade, 3⟩, ⟨.heart, 4⟩, ⟨.club, 5⟩, ⟨.diamond, 6⟩, ⟨.spade, 7⟩, ⟨.heart, 8⟩],
       [⟨.club, 9⟩], [],
       [⟨.diamond, 13⟩], [⟨.spade, 13⟩], [⟨.club, 12⟩], [⟨.heart, 12⟩], [⟨.spade, 12⟩]] }

/-- Witness for C5: with 2 empty reserve slots and 1 empty column other than a
non-empty destination, the capacity is `(1+2)*2^1 = 6`. -/
theorem claim_C5_witness : moveCapacity capacityField 0 1 = Except.ok 6 := by
  rw [claim_C5 capacityField 0 1 (by decide)]; rfl

/-! ## C9 — move_capacity from an empty column -/

/-- C9: `move_capacity src dest` with an empty source column raises
`MoveFromEmpty`. -/
theorem claim_C9 : ∀ f a b, tableauAt f a = [] →
    moveCapacity f a b = Except.error MoveErr.moveFromEmpty := by
  intro f a b ha
  rw [moveCapacity, if_pos ha]

/-- Witness for C9 on a freshly dealt empty-deck field. -/
theorem claim_C9_witness :
    moveCapacity ⟨List.replicate 4 none, List.replicate 4 [], List.replicate 8 []⟩ 0 1 =
      Except.error MoveErr.moveFromEmpty :=
  claim_C9 _ 0 1 rfl

/-! ## C1 — InvalidMove and partial mutation in move_tableau_group -/

/-- A field on which `move_tableau_group 0 1 1` raises `InvalidMove` *after*
popping the moved card: column 0's top (red 5) cannot go on column 1's top
(black 9), but `n = 1` passes the capacity validation. -/
def lostCardField : FreeCell :=
  { reserve := List.replicate 4 none
    foundation := List.replicate 4 []
    tableau := [[⟨.heart, 5⟩], [⟨.spade, 9⟩], [], [], [], [], [], []] }

/-- Counterexample to C1: `move_tableau_group` can raise `InvalidMove` with
the field partially mutated — here the popped card has left column 0 and was
never placed anywhere, so the state at the raise differs from the initial
state. -/
theorem claim_C1_cex :
    moveTableauGroup lostCardField 0 1 1 =
      Except.error (MoveErr.invalidMove,
        { lostCardField with tableau := [[], [⟨.spade, 9⟩], [], [], [], [], [], []] }) ∧
    ({ lostCardField with tableau := [[], [⟨.spade, 9⟩], [], [], [], [], [], []] } : FreeCell)
      ≠ lostCardField := by
  refine ⟨rfl, ?_⟩
  decide

/-- C1 (amended): an `InvalidMove` raised by `move_tableau_group`'s
*validation phase* — `n = 0`, or `n` exceeding `move_capacity` — leaves the
field exactly as it was; only the later placement phase can raise
`InvalidMove` after mutation. -/
theorem claim_C1_amended : ∀ f a b n,
    (n = 0 ∨ ∃ cap, moveCapacity f a b = Except.ok cap ∧ cap < n) →
    moveTableauGroup f a b n = Except.error (MoveErr.invalidMove, f) := by
  intro f a b n h
  rcases h with h0 | ⟨cap, hcap, hlt⟩
  · rw [moveTableauGroup, if_pos h0]
  · rw [moveTableauGroup, if_neg (by omega), hcap]
    simp [hlt]

/-- Witness for the amended C1: `n = 0` on a concrete field raises
`InvalidMove` with the field untouched. -/
theorem claim_C1_amended_witness :
    moveTableauGroup capacityField 0 1 0 =
      Except.error (MoveErr.invalidMove, capacityField) :=
  claim_C1_amended capacityField 0 1 0 (Or.inl rfl)

/-! ## Single sweep moves

A sweep move takes the card at one position (a reserve slot or the top of a
tableau column) that satisfies `should_move_to_foundation` and pushes it on
its foundation pile — this is the common effect of one iteration of the loops
inside `FreeCell.sweep` and `FreeCell.sweep_step`. -/

inductive Pos where
  | res (i : Nat)
  | tab (i : Nat)
deriving DecidableEq, Repr

/-- The card a sweep would examine at position `p`. -/
def posCard (f : FreeCell) : Pos → Option Card
  | .res i => reserveAt f i
  | .tab i => (tableauAt f i).head?

/-- The field after taking the card at position `p` out. -/
def removePos (f : FreeCell) : Pos → FreeCell
  | .res i => { f with reserve := f.reserve.set i none }
  | .tab i => { f with tableau := f.tableau.set i (tableauAt f i).tail }

/-- One sweep move at position `p`: the card there should auto-advance, and it
is moved onto its foundation pile. -/
def SMoveAt (p : Pos) (f g : FreeCell) : Prop :=
  ∃ c, posCard f p = some c ∧ shouldMoveToFoundation f c = true ∧
    g = pushFoundation (removePos f p) c

def Step (f g : FreeCell) : Prop := ∃ p, SMoveAt p f g

/-- Any number of sweep moves. -/
def Moves : FreeCell → FreeCell → Prop := Relation.ReflTransGen Step

/-- No sweep move applies: every reserve card and tableau top fails
`should_move_to_foundation`. -/
def NF (f : FreeCell) : Prop := ∀ g, ¬ Step f g

/-- The cards still in play (reserve and tableau), as a multiset. -/
def pendingMS (f : FreeCell) : Multiset Card :=
  ↑(f.reserve.filterMap id) + ↑f.tableau.flatten

/-- Number of cards still in play. -/
def cardCount (f : FreeCell) : Nat :=
  (f.reserve.filterMap id).length + f.tableau.flatten.length

theorem pendingMS_card (f : FreeCell) : Multiset.card (pendingMS f) = cardCount f := by
  simp [pendingMS, cardCount]

/-! ### Multiset accounting for `List.set` -/

theorem flatten_set_ms {α : Type} (l : List (List α)) (y : List α) :
    ∀ i, i < l.length →
      (↑((l.set i y).flatten) : Multiset α) + ↑(l.getD i []) = ↑l.flatten + ↑y := by
  induction l with
  | nil => intro i h; simp at h
  | cons h t ih =>
    intro i hi
    cases i with
    | zero =>
      simp only [List.set_cons_zero, List.flatten_cons, List.getD_cons_zero]
      show (↑y + ↑t.flatten : Multiset α) + ↑h = (↑h + ↑t.flatten) + ↑y
      abel
    | succ j =>
      simp only [List.set_cons_succ, List.flatten_cons, List.getD_cons_succ]
      have hj := ih j (by simpa using hi)
      show (↑h + ↑(t.set j y).flatten : Multiset α) + ↑(t.getD j []) = (↑h + ↑t.flatten) + ↑y
      rw [add_assoc, hj, add_assoc]

theorem filterMap_set_ms {α : Type} (l : List (Option α)) (v : Option α) :
    ∀ i, i < l.length →
      (↑((l.set i v).filterMap id) : Multiset α) + ↑(l.getD i none).toList =
        ↑(l.filterMap id) + ↑v.toList := by
  induction l with
  | nil => intro i h; simp at h
  | cons h t ih =>
    intro i hi
    cases i with
    | zero =>
      simp only [List.set_cons_zero, List.getD_cons_zero, List.filterMap_cons]
      cases h <;> cases v <;>
        simp only [id, Option.toList, ← Multiset.cons_coe, Multiset.cons_add,
          Multiset.coe_nil, Multiset.coe_singleton, add_zero, Multiset.add_cons] <;>
        first
        | rfl
        | rw [Multiset.cons_swap]
    | succ j =>
      simp only [List.set_cons_succ, List.getD_cons_succ, List.filterMap_cons]
      have hj := ih j (by simpa using hi)
      cases h with
      | none => simpa using hj
      | some a =>
        simp only [id]
        show ((a :: (t.set j v).filterMap id : List α) : Multiset α) + _ =
          ((a :: t.filterMap id : List α) : Multiset α) + _
        simp only [← Multiset.cons_coe, Multiset.cons_add]
        rw [hj]

/-! ### Effect of a single sweep move on the pending cards -/

theorem getD_some_lt_length {α : Type} (l : List (Option α)) (i : Nat) (c : α)
    (h : l.getD i none = some c) : i < l.length := by
  by_contra hi
  rw [List.getD_eq_default] at h
  · exact Option.noConfusion h
  · omega

theorem getD_cons_lt_length {α : Type} (l : List (List α)) (i : Nat) (c : α) (r : List α)
    (h : l.getD i [] = c :: r) : i < l.length := by
  by_contra hi
  rw [List.getD_eq_default] at h
  · exact List.noConfusion h
  · omega

theorem pendingMS_pushFoundation (f : FreeCell) (c : Card) :
    pendingMS (pushFoundation f c) = pendingMS f := rfl

theorem cardCount_eq_card (f : FreeCell) : cardCount f = Multiset.card (pendingMS f) :=
  (pendingMS_card f).symm

theorem removePos_pending (f : FreeCell) (p : Pos) (c : Card)
    (hc : posCard f p = some c) :
    pendingMS (removePos f p) + {c} = pendingMS f := by
  cases p with
  | res i =>
    have hi : i < f.reserve.length := getD_some_lt_length _ _ _ hc
    have := filterMap_set_ms f.reserve none i hi
    rw [show f.reserve.getD i none = some c from hc] at this
    simp only [Option.toList, Multiset.coe_nil, add_zero, Multiset.coe_singleton] at this
    show (↑((f.reserve.set i none).filterMap id) + ↑f.tableau.flatten : Multiset Card) + {c} =
      ↑(f.reserve.filterMap id) + ↑f.tableau.flatten
    rw [add_right_comm, this]
  | tab i =>
    obtain ⟨r, hr⟩ : ∃ r, tableauAt f i = c :: r := by
      rcases ht : tableauAt f i with _ | ⟨d, r⟩
      · rw [posCard, ht] at hc; exact Option.noConfusion hc
      · rw [posCard, ht] at hc
        simp only [List.head?_cons, Option.some.injEq] at hc
        exact ⟨r, by rw [hc]⟩
    have hi : i < f.tableau.length := getD_cons_lt_length _ _ _ _ hr
    have := flatten_set_ms f.tableau r i hi
    rw [show f.tableau.getD i [] = c :: r from hr] at this
    show (↑(f.reserve.filterMap id) + ↑((f.tableau.set i (tableauAt f i).tail).flatten)
      : Multiset Card) + {c} = ↑(f.reserve.filterMap id) + ↑f.tableau.flatten
    rw [hr]
    show (↑(f.reserve.filterMap id) + ↑((f.tableau.set i r).flatten) : Multiset Card) + {c} =
      ↑(f.reserve.filterMap id) + ↑f.tableau.flatten
    rw [add_assoc]
    congr 1
    calc (↑((f.tableau.set i r).flatten) : Multiset Card) + {c}
        = ↑((f.tableau.set i r).flatten) + ↑[c] := by rw [Multiset.coe_singleton]
      _ = ↑f.tableau.flatten := by
          have h2 := this
          rw [show ((c :: r : List Card) : Multiset Card) = ↑[c] + ↑r from rfl] at h2
          have h3 : (↑((f.tableau.set i r).flatten) : Multiset Card) + ↑[c] + ↑r =
              ↑f.tableau.flatten + ↑r := by
            rw [add_assoc]; exact h2
          exact add_right_cancel h3

theorem SMoveAt_pending (p : Pos) (f g : FreeCell) (h : SMoveAt p f g) :
    ∃ c, posCard f p = some c ∧ pendingMS g + {c} = pendingMS f := by
  obtain ⟨c, hc, _, hg⟩ := h
  exact ⟨c, hc, by rw [hg, pendingMS_pushFoundation]; exact removePos_pending f p c hc⟩

/-! ### List helpers -/

theorem getD_set_ne {α : Type} (l : List α) (i j : Nat) (v d : α) (h : i ≠ j) :
    (l.set i v).getD j d = l.getD j d := by
  rw [List.getD, List.getD, List.get?_eq_getElem?, List.get?_eq_getElem?, List.getElem?_set_ne h]

theorem getD_set_self {α : Type} (l : List α) (i : Nat) (v d : α) (h : i < l.length) :
    (l.set i v).getD i d = v := by
  rw [List.getD, List.get?_eq_getElem?, List.getElem?_set_eq_of_lt _ h]
  rfl

theorem getD_mem {α : Type} (l : List α) (i : Nat) (d : α) (h : i < l.length) :
    l.getD i d ∈ l := by
  rw [List.getD_eq_getElem l d h]
  exact l.getElem_mem h

/-! ### Consequences of a step for counting and distinctness -/

theorem Step_pending {f g : FreeCell} (h : Step f g) :
    ∃ c, pendingMS g + {c} = pendingMS f := by
  obtain ⟨p, hp⟩ := h
  obtain ⟨c, _, hc⟩ := SMoveAt_pending p f g hp
  exact ⟨c, hc⟩

theorem Step_count {f g : FreeCell} (h : Step f g) : cardCount g + 1 = cardCount f := by
  obtain ⟨c, hc⟩ := Step_pending h
  have := congrArg Multiset.card hc
  simpa [cardCount_eq_card] using this

theorem Step_nodup {f g : FreeCell} (h : Step f g) (hn : (pendingMS f).Nodup) :
    (pendingMS g).Nodup := by
  obtain ⟨c, hc⟩ := Step_pending h
  exact Multiset.nodup_of_le (hc ▸ Multiset.le_add_right _ _) hn

/-! ### Positions under removal and foundation pushes -/

theorem posCard_pushFoundation (f : FreeCell) (c : Card) (q : Pos) :
    posCard (pushFoundation f c) q = posCard f q := by
  cases q <;> rfl

theorem foundation_removePos (f : FreeCell) (p : Pos) :
    (removePos f p).foundation = f.foundation := by
  cases p <;> rfl

theorem canMove_removePos (f : FreeCell) (p : Pos) (c : Card) :
    canMoveToFoundation (removePos f p) c = canMoveToFoundation f c := by
  cases p <;> rfl

theorem getValue_removePos (f : FreeCell) (p : Pos) (j : Nat) :
    getValue (removePos f p) j = getValue f j := by
  cases p <;> rfl

theorem posCard_removePos_ne (f : FreeCell) (p q : Pos) (hpq : p ≠ q) (c : Card)
    (h : posCard f q = some c) : posCard (removePos f p) q = some c := by
  cases p with
  | res i =>
    cases q with
    | res j =>
      have hij : i ≠ j := fun he => hpq (by rw [he])
      rw [posCard, removePos] at *
      show (f.reserve.set i none).getD j none = some c
      rw [getD_set_ne _ _ _ _ _ hij]
      exact h
    | tab j => exact h
  | tab i =>
    cases q with
    | res j => exact h
    | tab j =>
      have hij : i ≠ j := fun he => hpq (by rw [he])
      show ((f.tableau.set i (tableauAt f i).tail).getD j []).head? = some c
      rw [getD_set_ne _ _ _ _ _ hij]
      exact h

theorem posCard_mem_pending (f : FreeCell) (p : Pos) (c : Card)
    (h : posCard f p = some c) : c ∈ pendingMS f := by
  cases p with
  | res i =>
    have hi : i < f.reserve.length := getD_some_lt_length _ _ _ h
    have hmem : some c ∈ f.reserve := h ▸ getD_mem _ _ _ hi
    have : c ∈ f.reserve.filterMap id := List.mem_filterMap.mpr ⟨some c, hmem, rfl⟩
    exact Multiset.mem_add.mpr (Or.inl (by exact_mod_cast this))
  | tab i =>
    rcases ht : tableauAt f i with _ | ⟨d, r⟩
    · rw [posCard, ht] at h; exact Option.noConfusion h
    · rw [posCard, ht] at h
      simp only [List.head?_cons, Option.some.injEq] at h
      rw [h] at ht
      have hi : i < f.tableau.length := getD_cons_lt_length _ _ _ _ ht
      have hmem : (c :: r) ∈ f.tableau := ht ▸ getD_mem _ _ _ hi
      have : c ∈ f.tableau.flatten := List.mem_flatten.mpr ⟨c :: r, hmem, List.mem_cons_self _ _⟩
      exact Multiset.mem_add.mpr (Or.inr (by exact_mod_cast this))

/-! ### The heuristic is monotone in the foundation tops -/

theorem should_spec (f : FreeCell) (c : Card) :
    shouldMoveToFoundation f c =
      (canMoveToFoundation f c && decide (c.value ≤ specAutoThreshold f c)) := by
  by_cases hc : canMoveToFoundation f c <;>
    by_cases hb : c.color = CardColor.black <;>
      simp [shouldMoveToFoundation, specAutoThreshold, hc, hb, Nat.le_min]

theorem should_can {f : FreeCell} {c : Card} (h : shouldMoveToFoundation f c = true) :
    canMoveToFoundation f c = true := by
  rw [should_spec] at h
  exact (Bool.and_eq_true_iff.mp h).1

theorem should_le {f : FreeCell} {c : Card} (h : shouldMoveToFoundation f c = true) :
    c.value ≤ specAutoThreshold f c := by
  rw [should_spec] at h
  simpa using (Bool.and_eq_true_iff.mp h).2

theorem foundationAt_push_ne (f : FreeCell) (c : Card) (j : Nat) (h : c.faceIndex ≠ j) :
    foundationAt (pushFoundation f c) j = foundationAt f j :=
  getD_set_ne _ _ _ _ _ h

theorem canMove_congr {f g : FreeCell} (d : Card)
    (h : foundationAt g d.faceIndex = foundationAt f d.faceIndex) :
    canMoveToFoundation g d = canMoveToFoundation f d := by
  unfold canMoveToFoundation
  rw [h]

theorem getValue_push_ge (f : FreeCell) (c : Card)
    (hcan : canMoveToFoundation f c = true) (j : Nat) :
    getValue f j ≤ getValue (pushFoundation f c) j := by
  by_cases hj : c.faceIndex = j
  · subst hj
    by_cases hl : c.faceIndex < f.foundation.length
    · have hfa : foundationAt (pushFoundation f c) c.faceIndex =
          c :: foundationAt f c.faceIndex := getD_set_self _ _ _ _ hl
      have hGv : getValue (pushFoundation f c) c.faceIndex = c.value := by
        rw [getValue, hfa]
      rw [hGv]
      rw [canMoveToFoundation] at hcan
      rcases hp : foundationAt f c.faceIndex with _ | ⟨t, r⟩ <;> rw [hp] at hcan
      · rw [getValue, hp]
        exact Nat.zero_le _
      · rw [getValue, hp]
        have ht : t.value + 1 = c.value := by simpa using hcan
        show t.value ≤ c.value
        omega
    · have : (pushFoundation f c).foundation = f.foundation := by
        show f.foundation.set c.faceIndex _ = f.foundation
        exact List.set_eq_of_length_le (by omega)
      rw [getValue, getValue, foundationAt, foundationAt, this]
  · rw [getValue, getValue, foundationAt_push_ne f c j hj]

theorem getValue_smove_ge {f g : FreeCell} {p : Pos} (hs : SMoveAt p f g) (j : Nat) :
    getValue f j ≤ getValue (g) j := by
  obtain ⟨c, hc, hsc, hg⟩ := hs
  have hcan : canMoveToFoundation (removePos f p) c = true := by
    rw [canMove_removePos]; exact should_can hsc
  calc getValue f j = getValue (removePos f p) j := (getValue_removePos f p j).symm
    _ ≤ getValue (pushFoundation (removePos f p) c) j := getValue_push_ge _ _ hcan j
    _ = getValue g j := by rw [hg]

theorem specThreshold_mono {f g : FreeCell} (h : ∀ j, getValue f j ≤ getValue g j)
    (c : Card) : specAutoThreshold f c ≤ specAutoThreshold g c := by
  unfold specAutoThreshold
  have h1 := h (Face.index .spade)
  have h2 := h (Face.index .club)
  have h3 := h (Face.index .heart)
  have h4 := h (Face.index .diamond)
  split <;>
    · apply min_le_min <;>
        · apply Nat.add_le_add_right
          exact min_le_min (by omega) (by omega)

/-! ### Distinct positions hold distinct cards (given no duplicates) -/

theorem distinct_cards {f : FreeCell} (hn : (pendingMS f).Nodup) {p q : Pos}
    (hpq : p ≠ q) {c d : Card} (hc : posCard f p = some c)
    (hd : posCard f q = some d) : c ≠ d := by
  intro he
  subst he
  have h1 : posCard (removePos f p) q = some c := posCard_removePos_ne f p q hpq c hd
  have h2 : c ∈ pendingMS (removePos f p) := posCard_mem_pending _ _ _ h1
  have h3 : pendingMS (removePos f p) + {c} = pendingMS f := removePos_pending f p c hc
  have hcnt : 2 ≤ (pendingMS f).count c := by
    rw [← h3, Multiset.count_add, Multiset.count_singleton_self]
    have := Multiset.one_le_count_iff_mem.mpr h2
    omega
  have := Multiset.nodup_iff_count_le_one.mp hn c
  omega

theorem face_index_inj {a b : Face} (h : Face.index a = Face.index b) : a = b := by
  cases a <;> cases b <;> simp_all [Face.index]

theorem canMove_faceIndex_ne {f : FreeCell} {c d : Card}
    (hc : canMoveToFoundation f c = true) (hd : canMoveToFoundation f d = true)
    (hne : c ≠ d) : c.faceIndex ≠ d.faceIndex := by
  intro he
  have hface : c.face = d.face := face_index_inj he
  apply hne
  rw [canMoveToFoundation] at hc hd
  rw [he] at hc
  rcases hp : foundationAt f d.faceIndex with _ | ⟨t, r⟩ <;> rw [hp] at hc hd
  · have h1 : c.value = 1 := by simpa using hc
    have h2 : d.value = 1 := by simpa using hd
    cases c; cases d
    simp_all
  · have h1 : t.value + 1 = c.value := by simpa using hc
    have h2 : t.value + 1 = d.value := by simpa using hd
    cases c; cases d
    simp_all

/-! ### Sweep moves at distinct positions commute -/

theorem removePos_pushFoundation_comm (f : FreeCell) (c : Card) (p : Pos) :
    removePos (pushFoundation f c) p = pushFoundation (removePos f p) c := by
  cases p <;> rfl

theorem removePos_comm (f : FreeCell) {p q : Pos} (hpq : p ≠ q) :
    removePos (removePos f p) q = removePos (removePos f q) p := by
  cases p with
  | res i =>
    cases q with
    | res j =>
      have hij : i ≠ j := fun he => hpq (by rw [he])
      show ({ f with reserve := (f.reserve.set i none).set j none } : FreeCell) =
        { f with reserve := (f.reserve.set j none).set i none }
      rw [List.set_comm _ _ _ hij]
    | tab j => rfl
  | tab i =>
    cases q with
    | res j => rfl
    | tab j =>
      have hij : i ≠ j := fun he => hpq (by rw [he])
      show ({ f with tableau := ((f.tableau.set i (tableauAt f i).tail).set j
          (tableauAt { f with tableau := f.tableau.set i (tableauAt f i).tail } j).tail) }
          : FreeCell) =
        { f with tableau := ((f.tableau.set j (tableauAt f j).tail).set i
          (tableauAt { f with tableau := f.tableau.set j (tableauAt f j).tail } i).tail) }
      have h1 : tableauAt { f with tableau := f.tableau.set i (tableauAt f i).tail } j =
          tableauAt f j := getD_set_ne _ _ _ _ _ hij
      have h2 : tableauAt { f with tableau := f.tableau.set j (tableauAt f j).tail } i =
          tableauAt f i := getD_set_ne _ _ _ _ _ (Ne.symm hij)
      rw [h1, h2, List.set_comm _ _ _ hij]

theorem pushFoundation_comm (f : FreeCell) {c d : Card}
    (h : c.faceIndex ≠ d.faceIndex) :
    pushFoundation (pushFoundation f c) d = pushFoundation (pushFoundation f d) c := by
  obtain ⟨r, F, t⟩ := f
  simp only [pushFoundation, foundationAt]
  rw [getD_set_ne _ _ _ _ _ h, getD_set_ne _ _ _ _ _ (Ne.symm h), List.set_comm _ _ _ h]

theorem should_push_remove_preserved {f : FreeCell} {p : Pos} {c d : Card}
    (hsc : shouldMoveToFoundation f c = true)
    (hsd : shouldMoveToFoundation f d = true)
    (hfi : d.faceIndex ≠ c.faceIndex) :
    shouldMoveToFoundation (pushFoundation (removePos f p) c) d = true := by
  set g := pushFoundation (removePos f p) c with hg
  have hsm : SMoveAt p f g → True := fun _ => trivial
  have hmono : ∀ j, getValue f j ≤ getValue g j := by
    intro j
    have hcan : canMoveToFoundation (removePos f p) c = true := by
      rw [canMove_removePos]; exact should_can hsc
    calc getValue f j = getValue (removePos f p) j := (getValue_removePos f p j).symm
      _ ≤ getValue g j := getValue_push_ge _ _ hcan j
  have hcanr : canMoveToFoundation g d = canMoveToFoundation f d := by
    apply canMove_congr
    rw [hg]
    rw [foundationAt_push_ne _ c d.faceIndex (Ne.symm hfi)]
    show (removePos f p).foundation.getD d.faceIndex [] = foundationAt f d.faceIndex
    rw [foundation_removePos]
    rfl
  rw [should_spec]
  rw [hcanr, should_can hsd]
  simp only [Bool.true_and, decide_eq_true_eq]
  exact le_trans (should_le hsd) (specThreshold_mono hmono d)

theorem smove_commute {f g h : FreeCell} {p q : Pos} (hn : (pendingMS f).Nodup)
    (hpq : p ≠ q) (hg : SMoveAt p f g) (hh : SMoveAt q f h) :
    ∃ t, SMoveAt q g t ∧ SMoveAt p h t := by
  obtain ⟨c, hc, hsc, hge⟩ := hg
  obtain ⟨d, hd, hsd, hhe⟩ := hh
  have hcd : c ≠ d := distinct_cards hn hpq hc hd
  have hcanc : canMoveToFoundation f c = true := should_can hsc
  have hcand : canMoveToFoundation f d = true := should_can hsd
  have hfi : c.faceIndex ≠ d.faceIndex := canMove_faceIndex_ne hcanc hcand hcd
  have hdg : posCard g q = some d := by
    rw [hge, posCard_pushFoundation]
    exact posCard_removePos_ne f p q hpq d hd
  have hch : posCard h p = some c := by
    rw [hhe, posCard_pushFoundation]
    exact posCard_removePos_ne f q p (Ne.symm hpq) c hc
  have hshd : shouldMoveToFoundation g d = true := by
    rw [hge]; exact should_push_remove_preserved hsc hsd (Ne.symm hfi)
  have hshc : shouldMoveToFoundation h c = true := by
    rw [hhe]; exact should_push_remove_preserved hsd hsc hfi
  refine ⟨pushFoundation (removePos g q) d, ⟨d, hdg, hshd, rfl⟩, ⟨c, hch, hshc, ?_⟩⟩
  rw [hge, hhe]
  rw [removePos_pushFoundation_comm, removePos_pushFoundation_comm]
  rw [removePos_comm f (Ne.symm hpq)]
  exact pushFoundation_comm _ hfi

/-! ### Unique normal forms (Newman-style, via strong commutation) -/

theorem SMoveAt_det {p : Pos} {f g1 g2 : FreeCell}
    (h1 : SMoveAt p f g1) (h2 : SMoveAt p f g2) : g1 = g2 := by
  obtain ⟨c1, hc1, _, he1⟩ := h1
  obtain ⟨c2, hc2, _, he2⟩ := h2
  rw [hc1] at hc2
  injection hc2 with hc
  rw [he1, he2, hc]

theorem moves_to_normal : ∀ N f, cardCount f ≤ N → (pendingMS f).Nodup →
    ∀ {g}, Moves f g → NF g → ∀ {p f1}, SMoveAt p f f1 → Moves f1 g := by
  intro N
  induction N with
  | zero =>
    intro f hcount _ g _ _ p f1 hp
    have := Step_count ⟨p, hp⟩
    omega
  | succ N ih =>
    intro f hcount hn g hfg hnf p f1 hp
    rcases Relation.ReflTransGen.cases_head hfg with rfl | ⟨f2, hstep, hrest⟩
    · exact absurd (⟨p, hp⟩ : Step f f1) (hnf f1)
    · obtain ⟨q, hq⟩ := hstep
      by_cases hpq : p = q
      · subst hpq
        rw [SMoveAt_det hp hq]
        exact hrest
      · obtain ⟨t, hqg, hpt⟩ := smove_commute hn hpq hp hq
        have hcount2 : cardCount f2 ≤ N := by
          have := Step_count ⟨q, hq⟩; omega
        have hn2 : (pendingMS f2).Nodup := Step_nodup ⟨q, hq⟩ hn
        have ht : Moves t g := ih f2 hcount2 hn2 hrest hnf hpt
        exact Relation.ReflTransGen.head ⟨q, hqg⟩ ht

theorem normal_unique : ∀ N f, cardCount f ≤ N → (pendingMS f).Nodup →
    ∀ {g h}, Moves f g → NF g → Moves f h → NF h → g = h := by
  intro N
  induction N with
  | zero =>
    intro f hcount hn g h hg hng hh hnh
    rcases Relation.ReflTransGen.cases_head hg with rfl | ⟨f1, hstep1, _⟩
    · rcases Relation.ReflTransGen.cases_head hh with rfl | ⟨f2, hstep2, _⟩
      · rfl
      · exact absurd hstep2 (hng _)
    · have := Step_count hstep1; omega
  | succ N ih =>
    intro f hcount hn g h hg hng hh hnh
    rcases Relation.ReflTransGen.cases_head hg with rfl | ⟨f1, hstep1, hrest1⟩
    · rcases Relation.ReflTransGen.cases_head hh with rfl | ⟨f2, hstep2, _⟩
      · rfl
      · exact absurd hstep2 (hng _)
    · obtain ⟨p, hp⟩ := hstep1
      have hmv : Moves f1 h := moves_to_normal (N + 1) f hcount hn hh hnh hp
      have hcount1 : cardCount f1 ≤ N := by
        have := Step_count ⟨p, hp⟩; omega
      exact ih f1 hcount1 (Step_nodup ⟨p, hp⟩ hn) hrest1 hng hmv hnh

/-! ## `FreeCell.sweep`

One pass of the `while 1` loop: scan the reserve slots in order, then the
tableau columns in order, moving every card that satisfies
`should_move_to_foundation` (re-checked against the current, already mutated
state) and recording whether anything moved.  Note that inside `sweep` the
call `move_to_foundation(move_from_reserve(i))` (resp. `move_to_foundation(
t.pop())`) always succeeds because `should_move_to_foundation` was just
checked and implies `can_move_to_foundation` (`moveToFoundation_of_should`
below), so the pass is written with the unchecked `pushFoundation`. -/

def sweepReserveStep (s : FreeCell × Bool) (i : Nat) : FreeCell × Bool :=
  match reserveAt s.1 i with
  | some c =>
    if shouldMoveToFoundation s.1 c then
      (pushFoundation { s.1 with reserve := s.1.reserve.set i none } c, true)
    else s
  | none => s

def sweepTableauStep (s : FreeCell × Bool) (i : Nat) : FreeCell × Bool :=
  match tableauAt s.1 i with
  | c :: rest =>
    if shouldMoveToFoundation s.1 c then
      (pushFoundation { s.1 with tableau := s.1.tableau.set i rest } c, true)
    else s
  | [] => s

def sweepPass (f : FreeCell) : FreeCell × Bool :=
  let s1 := (List.range f.reserve.length).foldl sweepReserveStep (f, false)
  (List.range s1.1.tableau.length).foldl sweepTableauStep s1

/-- In the sweep, the checked `move_to_foundation` call always succeeds. -/
theorem moveToFoundation_of_should {f : FreeCell} {c : Card}
    (h : shouldMoveToFoundation f c = true) :
    moveToFoundation f c = Except.ok (pushFoundation f c) := by
  rw [moveToFoundation, if_pos (should_can h)]

theorem sweepReserveStep_eq_of_some {s : FreeCell × Bool} {i : Nat} {c : Card}
    (h : reserveAt s.1 i = some c) (hs : shouldMoveToFoundation s.1 c = true) :
    sweepReserveStep s i =
      (pushFoundation { s.1 with reserve := s.1.reserve.set i none } c, true) := by
  rw [sweepReserveStep, h]
  show (if shouldMoveToFoundation s.1 c = true then
    (pushFoundation { s.1 with reserve := s.1.reserve.set i none } c, true) else s) = _
  rw [if_pos hs]

theorem sweepReserveStep_cases (s : FreeCell × Bool) (i : Nat) :
    sweepReserveStep s i = s ∨
      ((sweepReserveStep s i).2 = true ∧ Step s.1 (sweepReserveStep s i).1) := by
  rcases h : reserveAt s.1 i with _ | c
  · left; rw [sweepReserveStep, h]
  · by_cases hs : shouldMoveToFoundation s.1 c = true
    · right
      rw [sweepReserveStep_eq_of_some h hs]
      exact ⟨rfl, ⟨.res i, c, h, hs, rfl⟩⟩
    · left
      rw [sweepReserveStep, h]
      show (if shouldMoveToFoundation s.1 c = true then
        (pushFoundation { s.1 with reserve := s.1.reserve.set i none } c, true) else s) = s
      rw [if_neg hs]

theorem sweepTableauStep_eq_of_cons {s : FreeCell × Bool} {i : Nat} {c : Card}
    {rest : List Card} (h : tableauAt s.1 i = c :: rest)
    (hs : shouldMoveToFoundation s.1 c = true) :
    sweepTableauStep s i =
      (pushFoundation { s.1 with tableau := s.1.tableau.set i rest } c, true) := by
  rw [sweepTableauStep, h]
  show (if shouldMoveToFoundation s.1 c = true then
    (pushFoundation { s.1 with tableau := s.1.tableau.set i rest } c, true) else s) = _
  rw [if_pos hs]

theorem sweepTableauStep_cases (s : FreeCell × Bool) (i : Nat) :
    sweepTableauStep s i = s ∨
      ((sweepTableauStep s i).2 = true ∧ Step s.1 (sweepTableauStep s i).1) := by
  rcases h : tableauAt s.1 i with _ | ⟨c, rest⟩
  · left; rw [sweepTableauStep, h]
  · by_cases hs : shouldMoveToFoundation s.1 c = true
    · right
      rw [sweepTableauStep_eq_of_cons h hs]
      refine ⟨rfl, ⟨.tab i, c, ?_, hs, ?_⟩⟩
      · rw [posCard, h]; rfl
      · show _ = pushFoundation
          { s.1 with tableau := s.1.tableau.set i (tableauAt s.1 i).tail } c
        rw [h]
        rfl
    · left
      rw [sweepTableauStep, h]
      show (if shouldMoveToFoundation s.1 c = true then
        (pushFoundation { s.1 with tableau := s.1.tableau.set i rest } c, true) else s) = s
      rw [if_neg hs]

/-! ### Generic facts about folding a scan step over a list of indices -/

/-- A scan step either leaves the state alone or makes one sweep move and
sets the moved flag. -/
abbrev ScanStepOK (step : FreeCell × Bool → Nat → FreeCell × Bool) : Prop :=
  ∀ s i, step s i = s ∨ ((step s i).2 = true ∧ Step s.1 (step s i).1)

section FoldScan

variable {step : FreeCell × Bool → Nat → FreeCell × Bool}

theorem foldScan_moves (hstep : ScanStepOK step) (l : List Nat) : ∀ s, Moves s.1 ((l.foldl step s).1) := by
  induction l with
  | nil => intro s; exact Relation.ReflTransGen.refl
  | cons i rest ih =>
    intro s
    rw [List.foldl_cons]
    rcases hstep s i with he | ⟨_, hmv⟩
    · rw [he]; exact ih s
    · exact Relation.ReflTransGen.head hmv (ih (step s i))

theorem foldScan_flag_mono (hstep : ScanStepOK step) (l : List Nat) :
    ∀ s, s.2 = true → (l.foldl step s).2 = true := by
  induction l with
  | nil => intro s h; exact h
  | cons i rest ih =>
    intro s h
    rw [List.foldl_cons]
    rcases hstep s i with he | ⟨ht, _⟩
    · rw [he]; exact ih s h
    · exact ih _ ht

theorem foldScan_false_fix (hstep : ScanStepOK step) (l : List Nat) :
    ∀ s, (l.foldl step s).2 = false → l.foldl step s = s := by
  induction l with
  | nil => intro s _; rfl
  | cons i rest ih =>
    intro s h
    rw [List.foldl_cons] at h ⊢
    rcases hstep s i with he | ⟨ht, _⟩
    · rw [he] at h ⊢; exact ih s h
    · exact absurd (foldScan_flag_mono hstep rest _ ht) (by rw [h]; simp)

theorem foldScan_count_le (hstep : ScanStepOK step) (l : List Nat) :
    ∀ s, cardCount ((l.foldl step s).1) ≤ cardCount s.1 := by
  induction l with
  | nil => intro s; exact le_refl _
  | cons i rest ih =>
    intro s
    rw [List.foldl_cons]
    rcases hstep s i with he | ⟨_, hmv⟩
    · rw [he]; exact ih s
    · have := Step_count hmv
      have := ih (step s i)
      omega

theorem foldScan_true_count (hstep : ScanStepOK step) (l : List Nat) :
    ∀ s, s.2 = false → (l.foldl step s).2 = true →
      cardCount ((l.foldl step s).1) < cardCount s.1 := by
  induction l with
  | nil => intro s h0 h1; rw [List.foldl_nil] at h1; rw [h0] at h1; exact absurd h1 (by simp)
  | cons i rest ih =>
    intro s h0 h1
    rw [List.foldl_cons] at h1 ⊢
    rcases hstep s i with he | ⟨ht, hmv⟩
    · rw [he] at h1 ⊢; exact ih s h0 h1
    · have := Step_count hmv
      have := foldScan_count_le hstep rest (step s i)
      omega

theorem foldScan_fix_steps (hstep : ScanStepOK step) (l : List Nat) :
    ∀ s, s.2 = false → l.foldl step s = s → ∀ i ∈ l, step s i = s := by
  induction l with
  | nil => intro s _ _ i hi; exact absurd hi (List.not_mem_nil i)
  | cons j rest ih =>
    intro s h0 hfix i hi
    rw [List.foldl_cons] at hfix
    rcases hstep s j with he | ⟨ht, _⟩
    · rw [he] at hfix
      rcases List.mem_cons.mp hi with rfl | hmem
      · exact he
      · exact ih s h0 hfix i hmem
    · have : (rest.foldl step (step s j)).2 = true := foldScan_flag_mono hstep rest _ ht
      rw [hfix, h0] at this
      exact absurd this (by simp)

end FoldScan

/-! ### Facts about one sweep pass -/

theorem sweepPass_eq (f : FreeCell) :
    sweepPass f =
      (List.range (((List.range f.reserve.length).foldl sweepReserveStep
        (f, false)).1.tableau.length)).foldl sweepTableauStep
        ((List.range f.reserve.length).foldl sweepReserveStep (f, false)) := rfl

theorem sweepPass_moves (f : FreeCell) : Moves f (sweepPass f).1 := by
  rw [sweepPass_eq]
  exact Relation.ReflTransGen.trans
    (foldScan_moves sweepReserveStep_cases _ (f, false))
    (foldScan_moves sweepTableauStep_cases _ _)

theorem sweepPass_false_fix (f : FreeCell) (h : (sweepPass f).2 = false) :
    sweepPass f = (f, false) := by
  rw [sweepPass_eq] at h ⊢
  have h2 := foldScan_false_fix sweepTableauStep_cases _ _ h
  rw [h2] at h ⊢
  exact foldScan_false_fix sweepReserveStep_cases _ _ h

theorem sweepPass_true_count (f : FreeCell) (h : (sweepPass f).2 = true) :
    cardCount (sweepPass f).1 < cardCount f := by
  rw [sweepPass_eq] at h ⊢
  set s1 := (List.range f.reserve.length).foldl sweepReserveStep (f, false) with hs1
  rcases hb : s1.2 with _ | _
  · have hfix : s1 = (f, false) := foldScan_false_fix sweepReserveStep_cases _ _ hb
    rw [hfix] at h ⊢
    exact foldScan_true_count sweepTableauStep_cases _ _ rfl h
  · have hlt : cardCount s1.1 < cardCount f :=
      foldScan_true_count sweepReserveStep_cases _ (f, false) rfl hb
    have hle := foldScan_count_le sweepTableauStep_cases
      (List.range s1.1.tableau.length) s1
    omega

theorem sweepPass_false_NF (f : FreeCell) (h : (sweepPass f).2 = false) :
    NF f := by
  have hfix := sweepPass_false_fix f h
  rw [sweepPass_eq] at hfix
  have hres : (List.range f.reserve.length).foldl sweepReserveStep (f, false) = (f, false) := by
    by_cases hb : ((List.range f.reserve.length).foldl sweepReserveStep (f, false)).2 = false
    · exact foldScan_false_fix sweepReserveStep_cases _ _ hb
    · have hb' : ((List.range f.reserve.length).foldl sweepReserveStep (f, false)).2 = true := by
        revert hb; cases ((List.range f.reserve.length).foldl sweepReserveStep (f, false)).2 <;>
          simp
      have := foldScan_flag_mono sweepTableauStep_cases
        (List.range ((List.range f.reserve.length).foldl sweepReserveStep
          (f, false)).1.tableau.length) _ hb'
      rw [hfix] at this
      exact absurd this (by simp)
  rw [hres] at hfix
  have hResFix := foldScan_fix_steps sweepReserveStep_cases _ (f, false) rfl hres
  have hTabFix := foldScan_fix_steps sweepTableauStep_cases _ (f, false) rfl hfix
  intro g hstep
  obtain ⟨p, c, hc, hs, _⟩ := hstep
  cases p with
  | res i =>
    have hc' : reserveAt ((f, false) : FreeCell × Bool).1 i = some c := hc
    have hs' : shouldMoveToFoundation ((f, false) : FreeCell × Bool).1 c = true := hs
    have hi : i < f.reserve.length := getD_some_lt_length _ _ _ hc
    have hfixi := hResFix i (List.mem_range.mpr hi)
    have := congrArg Prod.snd hfixi
    rw [sweepReserveStep_eq_of_some hc' hs'] at this
    exact absurd this (by simp)
  | tab i =>
    rcases ht : tableauAt f i with _ | ⟨c1, rest⟩
    · rw [posCard, ht] at hc; exact Option.noConfusion hc
    · rw [posCard, ht] at hc
      simp only [List.head?_cons, Option.some.injEq] at hc
      rw [hc] at ht
      have ht' : tableauAt ((f, false) : FreeCell × Bool).1 i = c :: rest := ht
      have hs' : shouldMoveToFoundation ((f, false) : FreeCell × Bool).1 c = true := hs
      have hi : i < f.tableau.length := getD_cons_lt_length _ _ _ _ ht
      have hfixi := hTabFix i (List.mem_range.mpr hi)
      have := congrArg Prod.snd hfixi
      rw [sweepTableauStep_eq_of_cons ht' hs'] at this
      exact absurd this (by simp)

/-- `FreeCell.sweep`: repeat `sweepPass` until a pass moves nothing.
Termination: every moving pass strictly decreases the number of cards still in
play (`sweepPass_true_count`). -/
def sweep (f : FreeCell) : FreeCell :=
  if h : (sweepPass f).2 = true then sweep (sweepPass f).1 else (sweepPass f).1
termination_by cardCount f
decreasing_by exact sweepPass_true_count f h

theorem sweep_unfold (f : FreeCell) :
    sweep f = if (sweepPass f).2 = true then sweep (sweepPass f).1 else (sweepPass f).1 := by
  rw [sweep]
  by_cases hb : (sweepPass f).2 = true <;> simp [hb]

/-- `sweep` only performs sweep moves and stops in a state where no card
should move. -/
theorem sweep_spec : ∀ N f, cardCount f ≤ N → Moves f (sweep f) ∧ NF (sweep f) := by
  intro N
  induction N with
  | zero =>
    intro f hc
    rw [sweep_unfold]
    rcases hb : (sweepPass f).2 with _ | _
    · simp only [Bool.false_eq_true, if_false]
      have hfix := sweepPass_false_fix f hb
      have h1 : (sweepPass f).1 = f := by rw [hfix]
      rw [h1]
      exact ⟨Relation.ReflTransGen.refl, sweepPass_false_NF f hb⟩
    · have := sweepPass_true_count f hb
      omega
  | succ N ih =>
    intro f hc
    rw [sweep_unfold]
    rcases hb : (sweepPass f).2 with _ | _
    · simp only [Bool.false_eq_true, if_false]
      have hfix := sweepPass_false_fix f hb
      have h1 : (sweepPass f).1 = f := by rw [hfix]
      rw [h1]
      exact ⟨Relation.ReflTransGen.refl, sweepPass_false_NF f hb⟩
    · simp only [if_true]
      have hlt := sweepPass_true_count f hb
      obtain ⟨hm, hnf⟩ := ih (sweepPass f).1 (by omega)
      exact ⟨Relation.ReflTransGen.trans (sweepPass_moves f) hm, hnf⟩

/-- The `while 1` loop of `FreeCell.sweep` with an explicit bound on the
number of passes; `none` means the bound was exhausted. -/
def sweepLoop : Nat → FreeCell → Option FreeCell
  | 0, _ => none
  | fuel + 1, f =>
    if (sweepPass f).2 = true then sweepLoop fuel (sweepPass f).1
    else some (sweepPass f).1

theorem sweepLoop_complete : ∀ fuel f, cardCount f < fuel →
    sweepLoop fuel f = some (sweep f) := by
  intro fuel
  induction fuel with
  | zero => intro f h; omega
  | succ fuel ih =>
    intro f h
    rw [sweepLoop, sweep_unfold]
    rcases hb : (sweepPass f).2 with _ | _
    · simp
    · simp only [if_true]
      have := sweepPass_true_count f hb
      exact ih (sweepPass f).1 (by omega)

/-! ## `FreeCell.sweep_step`

The same scan as one `sweep` pass, but carrying the `left` counter and the
early `return True` (modelled by the `returned` flag, which freezes the rest
of the scan exactly as the python `return` skips it). -/

structure StepScanState where
  f : FreeCell
  left : Int
  returned : Bool
deriving DecidableEq, Repr

def stepReserve (s : StepScanState) (i : Nat) : StepScanState :=
  if s.returned then s
  else
    match reserveAt s.f i with
    | some c =>
      if shouldMoveToFoundation s.f c then
        { f := pushFoundation { s.f with reserve := s.f.reserve.set i none } c
          left := s.left - 1
          returned := s.left - 1 ≤ 0 }
      else s
    | none => s

def stepTableau (s : StepScanState) (i : Nat) : StepScanState :=
  if s.returned then s
  else
    match tableauAt s.f i with
    | c :: rest =>
      if shouldMoveToFoundation s.f c then
        { f := pushFoundation { s.f with tableau := s.f.tableau.set i rest } c
          left := s.left - 1
          returned := s.left - 1 ≤ 0 }
      else s
    | [] => s

/-- `FreeCell.sweep_step(n)`: scan the reserve then the tableau, moving at
most `n` cards, returning early once `n` have moved; the boolean result is
`True` on the early return and otherwise `left != n`. -/
def sweepStep (n : Int) (f : FreeCell) : FreeCell × Bool :=
  let s1 := (List.range f.reserve.length).foldl stepReserve ⟨f, n, false⟩
  let s2 := (List.range s1.f.tableau.length).foldl stepTableau s1
  if s2.returned then (s2.f, true) else (s2.f, s2.left != n)

/-- Each `sweep_step` scan step is the identity or a single sweep move that
decrements `left`. -/
abbrev StepScanOK (step : StepScanState → Nat → StepScanState) : Prop :=
  ∀ s i, step s i = s ∨
    (s.returned = false ∧ Step s.f (step s i).f ∧ (step s i).left = s.left - 1)

theorem stepReserve_eq_of_some {s : StepScanState} {i : Nat} {c : Card}
    (hr : s.returned = false) (h : reserveAt s.f i = some c)
    (hs : shouldMoveToFoundation s.f c = true) :
    stepReserve s i =
      { f := pushFoundation { s.f with reserve := s.f.reserve.set i none } c
        left := s.left - 1
        returned := s.left - 1 ≤ 0 } := by
  rw [stepReserve, if_neg (by rw [hr]; exact Bool.false_ne_true), h]
  show (if shouldMoveToFoundation s.f c = true then _ else s) = _
  rw [if_pos hs]

theorem stepTableau_eq_of_cons {s : StepScanState} {i : Nat} {c : Card} {rest : List Card}
    (hr : s.returned = false) (h : tableauAt s.f i = c :: rest)
    (hs : shouldMoveToFoundation s.f c = true) :
    stepTableau s i =
      { f := pushFoundation { s.f with tableau := s.f.tableau.set i rest } c
        left := s.left - 1
        returned := s.left - 1 ≤ 0 } := by
  rw [stepTableau, if_neg (by rw [hr]; exact Bool.false_ne_true), h]
  show (if shouldMoveToFoundation s.f c = true then _ else s) = _
  rw [if_pos hs]

theorem stepReserve_cases : StepScanOK stepReserve := by
  intro s i
  by_cases hr : s.returned = true
  · left; rw [stepReserve, if_pos hr]
  · have hr' : s.returned = false := by revert hr; cases s.returned <;> simp
    rcases h : reserveAt s.f i with _ | c
    · left; rw [stepReserve, if_neg (by rw [hr']; exact Bool.false_ne_true), h]
    · by_cases hs : shouldMoveToFoundation s.f c = true
      · right
        rw [stepReserve_eq_of_some hr' h hs]
        exact ⟨hr', ⟨.res i, c, h, hs, rfl⟩, rfl⟩
      · left
        rw [stepReserve, if_neg (by rw [hr']; exact Bool.false_ne_true), h]
        show (if shouldMoveToFoundation s.f c = true then _ else s) = s
        rw [if_neg hs]

theorem stepTableau_cases : StepScanOK stepTableau := by
  intro s i
  by_cases hr : s.returned = true
  · left; rw [stepTableau, if_pos hr]
  · have hr' : s.returned = false := by revert hr; cases s.returned <;> simp
    rcases h : tableauAt s.f i with _ | ⟨c, rest⟩
    · left; rw [stepTableau, if_neg (by rw [hr']; exact Bool.false_ne_true), h]
    · by_cases hs : shouldMoveToFoundation s.f c = true
      · right
        rw [stepTableau_eq_of_cons hr' h hs]
        refine ⟨hr', ⟨.tab i, c, ?_, hs, ?_⟩, rfl⟩
        · rw [posCard, h]; rfl
        · show _ = pushFoundation
            { s.f with tableau := s.f.tableau.set i (tableauAt s.f i).tail } c
          rw [h]
          rfl
      · left
        rw [stepTableau, if_neg (by rw [hr']; exact Bool.false_ne_true), h]
        show (if shouldMoveToFoundation s.f c = true then _ else s) = s
        rw [if_neg hs]

/-! ### Folding the sweep_step scan -/

/-- During a `sweep_step` scan that started at `⟨f, n, false⟩`, either nothing
has happened yet, or at least one card has moved, the card count has dropped
and `left` has dropped below `n`. -/
def StepInv (f : FreeCell) (n : Int) (s : StepScanState) : Prop :=
  s = ⟨f, n, false⟩ ∨ (cardCount s.f < cardCount f ∧ s.left < n)

section FoldStepScan

variable {step : StepScanState → Nat → StepScanState}

theorem foldStep_moves (hstep : StepScanOK step) (l : List Nat) :
    ∀ s, Moves s.f ((l.foldl step s).f) := by
  induction l with
  | nil => intro s; exact Relation.ReflTransGen.refl
  | cons i rest ih =>
    intro s
    rw [List.foldl_cons]
    rcases hstep s i with he | ⟨_, hmv, _⟩
    · rw [he]; exact ih s
    · exact Relation.ReflTransGen.head hmv (ih (step s i))

theorem foldStep_count_le (hstep : StepScanOK step) (l : List Nat) :
    ∀ s, cardCount ((l.foldl step s).f) ≤ cardCount s.f := by
  induction l with
  | nil => intro s; exact le_refl _
  | cons i rest ih =>
    intro s
    rw [List.foldl_cons]
    rcases hstep s i with he | ⟨_, hmv, _⟩
    · rw [he]; exact ih s
    · have := Step_count hmv
      have := ih (step s i)
      omega

theorem foldStep_inv (hstep : StepScanOK step) (l : List Nat) (f : FreeCell) (n : Int) :
    ∀ s, StepInv f n s → StepInv f n (l.foldl step s) := by
  induction l with
  | nil => intro s h; exact h
  | cons i rest ih =>
    intro s h
    rw [List.foldl_cons]
    refine ih (step s i) ?_
    rcases hstep s i with he | ⟨_, hmv, hleft⟩
    · rw [he]; exact h
    · rcases h with rfl | ⟨hcnt, hlt⟩
      · right
        have hcnt := Step_count hmv
        have hcnt' : cardCount (step (⟨f, n, false⟩ : StepScanState) i).f + 1 =
          cardCount f := hcnt
        have hleft' : (step (⟨f, n, false⟩ : StepScanState) i).left = n - 1 := by
          rw [hleft]
        exact ⟨by omega, by omega⟩
      · right
        have hcnt2 := Step_count hmv
        exact ⟨by omega, by rw [hleft]; omega⟩

theorem foldStep_fix_steps (hstep : StepScanOK step) (l : List Nat) :
    ∀ s, l.foldl step s = s → ∀ i ∈ l, step s i = s := by
  induction l with
  | nil => intro s _ i hi; exact absurd hi (List.not_mem_nil i)
  | cons j rest ih =>
    intro s hfix i hi
    rw [List.foldl_cons] at hfix
    rcases hstep s j with he | ⟨_, hmv, _⟩
    · rw [he] at hfix
      rcases List.mem_cons.mp hi with rfl | hmem
      · exact he
      · exact ih s hfix i hmem
    · have h1 := Step_count hmv
      have h2 := foldStep_count_le hstep rest (step s j)
      rw [hfix] at h2
      omega

theorem foldStep_eq_or_count (hstep : StepScanOK step) (l : List Nat) :
    ∀ s, l.foldl step s = s ∨ cardCount ((l.foldl step s).f) < cardCount s.f := by
  induction l with
  | nil => intro s; left; rfl
  | cons i rest ih =>
    intro s
    rw [List.foldl_cons]
    rcases hstep s i with he | ⟨_, hmv, _⟩
    · rw [he]; exact ih s
    · right
      have h1 := Step_count hmv
      have h2 := foldStep_count_le hstep rest (step s i)
      omega

end FoldStepScan

/-! ### Facts about `sweep_step` -/

theorem sweepStep_eq (n : Int) (f : FreeCell) :
    sweepStep n f =
      (let s1 := (List.range f.reserve.length).foldl stepReserve ⟨f, n, false⟩
       let s2 := (List.range s1.f.tableau.length).foldl stepTableau s1
       if s2.returned then (s2.f, true) else (s2.f, s2.left != n)) := rfl

theorem sweepStep_moves (n : Int) (f : FreeCell) : Moves f (sweepStep n f).1 := by
  have h1 := foldStep_moves stepReserve_cases (List.range f.reserve.length)
    (⟨f, n, false⟩ : StepScanState)
  set s1 := (List.range f.reserve.length).foldl stepReserve
    (⟨f, n, false⟩ : StepScanState) with hs1
  have h2 := foldStep_moves stepTableau_cases (List.range s1.f.tableau.length) s1
  set s2 := (List.range s1.f.tableau.length).foldl stepTableau s1 with hs2
  have hrw : sweepStep n f =
      if s2.returned = true then (s2.f, true) else (s2.f, s2.left != n) := rfl
  rw [hrw]
  have hmv : Moves f s2.f := Relation.ReflTransGen.trans h1 h2
  by_cases hr : s2.returned = true
  · rw [if_pos hr]; exact hmv
  · rw [if_neg hr]; exact hmv

theorem sweepStep_true_count (n : Int) (f : FreeCell)
    (h : (sweepStep n f).2 = true) : cardCount (sweepStep n f).1 < cardCount f := by
  set s1 := (List.range f.reserve.length).foldl stepReserve
    (⟨f, n, false⟩ : StepScanState) with hs1
  set s2 := (List.range s1.f.tableau.length).foldl stepTableau s1 with hs2
  have hinv : StepInv f n s2 :=
    foldStep_inv stepTableau_cases _ f n _
      (foldStep_inv stepReserve_cases _ f n _ (Or.inl rfl))
  have hrw : sweepStep n f =
      if s2.returned = true then (s2.f, true) else (s2.f, s2.left != n) := rfl
  rw [hrw] at h ⊢
  rcases hinv with he | ⟨hcnt, _⟩
  · rw [he] at h
    simp at h
  · by_cases hr : s2.returned = true
    · rw [if_pos hr]; exact hcnt
    · rw [if_neg hr]; exact hcnt

theorem sweepStep_false_fix (n : Int) (f : FreeCell)
    (h : (sweepStep n f).2 = false) : (sweepStep n f).1 = f ∧ NF f := by
  set s1 := (List.range f.reserve.length).foldl stepReserve
    (⟨f, n, false⟩ : StepScanState) with hs1
  set s2 := (List.range s1.f.tableau.length).foldl stepTableau s1 with hs2
  have hinv : StepInv f n s2 :=
    foldStep_inv stepTableau_cases _ f n _
      (foldStep_inv stepReserve_cases _ f n _ (Or.inl rfl))
  have hrw : sweepStep n f =
      if s2.returned = true then (s2.f, true) else (s2.f, s2.left != n) := rfl
  rw [hrw] at h ⊢
  have hs2eq : s2 = ⟨f, n, false⟩ := by
    rcases hinv with he | ⟨_, hlt⟩
    · exact he
    · exfalso
      by_cases hr : s2.returned = true
      · rw [if_pos hr] at h; simp at h
      · rw [if_neg hr] at h
        simp only [bne_eq_false_iff_eq] at h
        rw [h] at hlt
        omega
  have hs1eq : s1 = ⟨f, n, false⟩ := by
    rcases foldStep_eq_or_count stepTableau_cases (List.range s1.f.tableau.length) s1 with
      he | hlt
    · rw [← hs2] at he
      exact he.symm.trans hs2eq
    · exfalso
      rw [← hs2, hs2eq] at hlt
      have hlt' : cardCount f < cardCount s1.f := hlt
      have h1 : cardCount s1.f ≤ cardCount f :=
        foldStep_count_le stepReserve_cases _ (⟨f, n, false⟩ : StepScanState)
      omega
  refine ⟨by rw [hs2eq]; simp, ?_⟩
  have hResFix : ∀ i ∈ List.range f.reserve.length,
      stepReserve ⟨f, n, false⟩ i = ⟨f, n, false⟩ :=
    foldStep_fix_steps stepReserve_cases _ _ (by rw [← hs1, hs1eq])
  have hTabFix : ∀ i ∈ List.range f.tableau.length,
      stepTableau ⟨f, n, false⟩ i = ⟨f, n, false⟩ := by
    have hfix := foldStep_fix_steps stepTableau_cases (List.range s1.f.tableau.length) s1
      (by rw [← hs2, hs2eq, hs1eq])
    rw [hs1eq] at hfix
    exact hfix
  intro g hstp
  obtain ⟨p, c, hc, hsh, _⟩ := hstp
  cases p with
  | res i =>
    have hc' : reserveAt (⟨f, n, false⟩ : StepScanState).f i = some c := hc
    have hsh' : shouldMoveToFoundation (⟨f, n, false⟩ : StepScanState).f c = true := hsh
    have hi : i < f.reserve.length := getD_some_lt_length _ _ _ hc
    have hfixi := hResFix i (List.mem_range.mpr hi)
    rw [stepReserve_eq_of_some rfl hc' hsh'] at hfixi
    have hfeq := congrArg StepScanState.f hfixi
    have hmv : Step f (pushFoundation { f with reserve := f.reserve.set i none } c) :=
      ⟨.res i, c, hc, hsh, rfl⟩
    have hstep := Step_count hmv
    have hcc : cardCount (pushFoundation { f with reserve := f.reserve.set i none } c) =
      cardCount f := congrArg cardCount hfeq
    omega
  | tab i =>
    rcases ht : tableauAt f i with _ | ⟨c1, rest⟩
    · rw [posCard, ht] at hc; exact Option.noConfusion hc
    · rw [posCard, ht] at hc
      simp only [List.head?_cons, Option.some.injEq] at hc
      rw [hc] at ht
      have ht' : tableauAt (⟨f, n, false⟩ : StepScanState).f i = c :: rest := ht
      have hsh' : shouldMoveToFoundation (⟨f, n, false⟩ : StepScanState).f c = true := hsh
      have hi : i < f.tableau.length := getD_cons_lt_length _ _ _ _ ht
      have hfixi := hTabFix i (List.mem_range.mpr hi)
      rw [stepTableau_eq_of_cons rfl ht' hsh'] at hfixi
      have hfeq := congrArg StepScanState.f hfixi
      have hmv : Step f (pushFoundation { f with tableau := f.tableau.set i rest } c) := by
        refine ⟨.tab i, c, ?_, hsh, ?_⟩
        · rw [posCard, ht]; rfl
        · show _ = pushFoundation
            { f with tableau := f.tableau.set i (tableauAt f i).tail } c
          rw [ht]
          rfl
      have hstep := Step_count hmv
      have hcc : cardCount (pushFoundation { f with tableau := f.tableau.set i rest } c) =
        cardCount f := congrArg cardCount hfeq
      omega

/-! ## Repeating `sweep_step` to exhaustion -/

/-- Call `sweep_step n` repeatedly until it returns `False` (the spec's
"invoked repeatedly to exhaustion").  Termination: every truthful call
strictly decreases the number of cards in play (`sweepStep_true_count`). -/
def sweepSteps (n : Int) (f : FreeCell) : FreeCell :=
  if h : (sweepStep n f).2 = true then sweepSteps n (sweepStep n f).1
  else (sweepStep n f).1
termination_by cardCount f
decreasing_by exact sweepStep_true_count n f h

theorem sweepSteps_unfold (n : Int) (f : FreeCell) :
    sweepSteps n f = if (sweepStep n f).2 = true then sweepSteps n (sweepStep n f).1
      else (sweepStep n f).1 := by
  rw [sweepSteps]
  by_cases hb : (sweepStep n f).2 = true <;> simp [hb]

theorem sweepSteps_spec (n : Int) : ∀ N f, cardCount f ≤ N →
    Moves f (sweepSteps n f) ∧ NF (sweepSteps n f) := by
  intro N
  induction N with
  | zero =>
    intro f hc
    rw [sweepSteps_unfold]
    rcases hb : (sweepStep n f).2 with _ | _
    · simp only [Bool.false_eq_true, if_false]
      obtain ⟨hfix, hnf⟩ := sweepStep_false_fix n f hb
      rw [hfix]
      exact ⟨Relation.ReflTransGen.refl, hnf⟩
    · have := sweepStep_true_count n f hb
      omega
  | succ N ih =>
    intro f hc
    rw [sweepSteps_unfold]
    rcases hb : (sweepStep n f).2 with _ | _
    · simp only [Bool.false_eq_true, if_false]
      obtain ⟨hfix, hnf⟩ := sweepStep_false_fix n f hb
      rw [hfix]
      exact ⟨Relation.ReflTransGen.refl, hnf⟩
    · simp only [if_true]
      have hlt := sweepStep_true_count n f hb
      obtain ⟨hm, hnf⟩ := ih (sweepStep n f).1 (by omega)
      exact ⟨Relation.ReflTransGen.trans (sweepStep_moves n f) hm, hnf⟩

/-- Fuel-bounded version of the repetition, used to evaluate `sweepSteps` on
concrete fields. -/
def sweepStepsLoop : Nat → Int → FreeCell → Option FreeCell
  | 0, _, _ => none
  | fuel + 1, n, f =>
    if (sweepStep n f).2 = true then sweepStepsLoop fuel n (sweepStep n f).1
    else some (sweepStep n f).1

theorem sweepStepsLoop_complete : ∀ fuel n f, cardCount f < fuel →
    sweepStepsLoop fuel n f = some (sweepSteps n f) := by
  intro fuel
  induction fuel with
  | zero => intro n f h; omega
  | succ fuel ih =>
    intro n f h
    rw [sweepStepsLoop, sweepSteps_unfold]
    rcases hb : (sweepStep n f).2 with _ | _
    · simp
    · simp only [if_true]
      have := sweepStep_true_count n f hb
      exact ih n (sweepStep n f).1 (by omega)

/-! ## C10 — termination of sweep() -/

/-- C10: `sweep()` terminates — for a field with at most 52 cards in play
(as any field dealt from a 52-card deck has), the unconditional loop
stabilises within 53 passes, because every pass except the last moves at
least one card to a foundation pile. -/
theorem claim_C10 (f : FreeCell) (h : cardCount f ≤ 52) :
    sweepLoop 53 f = some (sweep f) :=
  sweepLoop_complete 53 f (by omega)

/-- Witness for C10 on the field dealt from the full deck. -/
theorem claim_C10_witness :
    sweepLoop 53 (initField makeDeck) = some (sweep (initField makeDeck)) :=
  claim_C10 (initField makeDeck) (by decide)

/-! ## C2 — sweep_step to exhaustion vs sweep -/

/-- C2 (amended): on a field whose in-play cards are pairwise distinct — as
in any position dealt from a real deck — repeatedly calling `sweep_step n`
until it returns `False` reaches exactly the state a single `sweep()` call
reaches. -/
theorem claim_C2_amended (n : Int) (f : FreeCell) (hn : 1 ≤ n)
    (hnd : (pendingMS f).Nodup) : sweepSteps n f = sweep f := by
  obtain ⟨hm1, hnf1⟩ := sweepSteps_spec n (cardCount f) f (le_refl _)
  obtain ⟨hm2, hnf2⟩ := sweep_spec (cardCount f) f (le_refl _)
  exact normal_unique (cardCount f) f (le_refl _) hnd hm1 hnf1 hm2 hnf2

/-- Witness for the amended C2: a small concrete field with distinct cards. -/
theorem claim_C2_amended_witness :
    sweepSteps 1 (initField [⟨.spade, 1⟩, ⟨.heart, 1⟩, ⟨.spade, 2⟩]) =
      sweep (initField [⟨.spade, 1⟩, ⟨.heart, 1⟩, ⟨.spade, 2⟩]) :=
  claim_C2_amended 1 (initField [⟨.spade, 1⟩, ⟨.heart, 1⟩, ⟨.spade, 2⟩])
    (by norm_num) (by decide)

/-- A field the code itself deals (`FreeCell([2♠, A♠, 2♠])`) containing two
copies of the two of spades. -/
def dupField : FreeCell := initField [⟨.spade, 2⟩, ⟨.spade, 1⟩, ⟨.spade, 2⟩]

/-- Counterexample to C2 as stated (for *every* starting Field): with
duplicate cards the two procedures diverge.  `sweep` continues its pass after
moving the ace, so the second 2♠ (column 2) reaches the foundation; repeated
`sweep_step(1)` restarts its scan after the ace, so the *first* 2♠ (column 0)
reaches the foundation instead, leaving a different column occupied. -/
theorem claim_C2_cex : sweepSteps 1 dupField ≠ sweep dupField := by
  have h1 := sweepLoop_complete 4 dupField (by decide)
  have h2 := sweepStepsLoop_complete 4 1 dupField (by decide)
  intro he
  rw [he] at h2
  have h3 : sweepLoop 4 dupField = sweepStepsLoop 4 1 dupField := by rw [h1, h2]
  exact absurd h3 (by decide)

/-! ## C3 — conservation of the 52 cards

`allCardsMS` collects every card in the field: reserve, tableau (together
`pendingMS`) and the foundation piles. -/

def allCardsMS (f : FreeCell) : Multiset Card := pendingMS f + ↑f.foundation.flatten

/-- Well-formed field shape: 4 reserve slots, 4 piles, 8 columns. -/
def WF (f : FreeCell) : Prop :=
  f.reserve.length = 4 ∧ f.foundation.length = 4 ∧ f.tableau.length = 8

theorem faceIndex_lt (c : Card) : c.faceIndex < 4 := by
  cases hf : c.face <;> simp [Card.faceIndex, hf, Face.index]

theorem coe_cons_split {α : Type} (c : α) (l : List α) :
    ((c :: l : List α) : Multiset α) = {c} + ↑l := by
  simp only [← Multiset.cons_coe, Multiset.coe_singleton, Multiset.singleton_add]

theorem allCards_pushFoundation {f : FreeCell} (c : Card)
    (h4 : f.foundation.length = 4) :
    allCardsMS (pushFoundation f c) = allCardsMS f + {c} := by
  have hl : c.faceIndex < f.foundation.length := by rw [h4]; exact faceIndex_lt c
  have key := flatten_set_ms f.foundation (c :: foundationAt f c.faceIndex) c.faceIndex hl
  have hpile : f.foundation.getD c.faceIndex [] = foundationAt f c.faceIndex := rfl
  rw [hpile, coe_cons_split] at key
  have key2 : (↑((f.foundation.set c.faceIndex
      (c :: foundationAt f c.faceIndex)).flatten) : Multiset Card) =
      ↑f.foundation.flatten + {c} := by
    have := key
    rw [show (↑f.foundation.flatten : Multiset Card) + ({c} + ↑(foundationAt f c.faceIndex)) =
      (↑f.foundation.flatten + {c}) + ↑(foundationAt f c.faceIndex) from by rw [add_assoc]]
      at this
    exact add_right_cancel this
  show pendingMS (pushFoundation f c) + _ = _
  rw [pendingMS_pushFoundation]
  show pendingMS f + ↑((f.foundation.set c.faceIndex
    (c :: foundationAt f c.faceIndex)).flatten) = pendingMS f + ↑f.foundation.flatten + {c}
  rw [key2, add_assoc]

theorem allCards_removePos {f : FreeCell} {p : Pos} {c : Card}
    (h : posCard f p = some c) :
    allCardsMS (removePos f p) + {c} = allCardsMS f := by
  have hp := removePos_pending f p c h
  show pendingMS (removePos f p) + ↑(removePos f p).foundation.flatten + {c} =
    pendingMS f + ↑f.foundation.flatten
  rw [foundation_removePos, add_right_comm, hp]

theorem WF_set_reserve {f : FreeCell} (hwf : WF f) (i : Nat) (v : Option Card) :
    WF { f with reserve := f.reserve.set i v } := by
  obtain ⟨h1, h2, h3⟩ := hwf
  exact ⟨by rw [List.length_set]; exact h1, h2, h3⟩

theorem WF_set_foundation {f : FreeCell} (hwf : WF f) (i : Nat) (v : List Card) :
    WF { f with foundation := f.foundation.set i v } := by
  obtain ⟨h1, h2, h3⟩ := hwf
  exact ⟨h1, by rw [List.length_set]; exact h2, h3⟩

theorem WF_set_tableau {f : FreeCell} (hwf : WF f) (i : Nat) (v : List Card) :
    WF { f with tableau := f.tableau.set i v } := by
  obtain ⟨h1, h2, h3⟩ := hwf
  exact ⟨h1, h2, by rw [List.length_set]; exact h3⟩

theorem WF_pushFoundation {f : FreeCell} (hwf : WF f) (c : Card) :
    WF (pushFoundation f c) := WF_set_foundation hwf _ _

theorem WF_removePos {f : FreeCell} (hwf : WF f) (p : Pos) : WF (removePos f p) := by
  cases p with
  | res i => exact WF_set_reserve hwf _ _
  | tab i => exact WF_set_tableau hwf _ _

theorem WF_step {f g : FreeCell} (h : Step f g) (hwf : WF f) : WF g := by
  obtain ⟨p, c, _, _, hg⟩ := h
  rw [hg]
  exact WF_pushFoundation (WF_removePos hwf p) c

theorem allCards_step {f g : FreeCell} (h : Step f g) (hwf : WF f) :
    allCardsMS g = allCardsMS f := by
  obtain ⟨p, c, hc, _, hg⟩ := h
  have hwr : WF (removePos f p) := WF_removePos hwf p
  rw [hg, allCards_pushFoundation c hwr.2.1]
  exact allCards_removePos hc

theorem allCards_moves {f g : FreeCell} (h : Moves f g) (hwf : WF f) :
    allCardsMS g = allCardsMS f ∧ WF g := by
  induction h with
  | refl => exact ⟨rfl, hwf⟩
  | tail hfg hstep ih =>
    obtain ⟨heq, hwfm⟩ := ih
    exact ⟨(allCards_step hstep hwfm).trans heq, WF_step hstep hwfm⟩

theorem moveToReserve_ok {f : FreeCell} {c : Card} {g : FreeCell}
    (h : moveToReserve f c = Except.ok g) :
    reserveFree f = true ∧
      g = { f with reserve := f.reserve.set (f.reserve.findIdx Option.isNone) (some c) } := by
  rw [moveToReserve] at h
  by_cases hr : reserveFree f = true
  · rw [if_pos hr] at h
    exact ⟨hr, (Except.ok.inj h).symm⟩
  · rw [if_neg hr] at h
    exact Except.noConfusion h

theorem findIdx_none_lt {f : FreeCell} (hr : reserveFree f = true) :
    f.reserve.findIdx Option.isNone < f.reserve.length := by
  apply List.findIdx_lt_length_of_exists
  rw [reserveFree] at hr
  simp only [Bool.not_eq_true', List.all_eq_false] at hr
  obtain ⟨x, hx, hxs⟩ := hr
  exact ⟨x, hx, by cases x <;> simp_all⟩

theorem findIdx_none_getD {f : FreeCell} (hr : reserveFree f = true) :
    f.reserve.getD (f.reserve.findIdx Option.isNone) none = none := by
  have hlt := findIdx_none_lt hr
  have := List.findIdx_getElem (w := hlt)
  rw [List.getD_eq_getElem f.reserve none hlt]
  cases hx : f.reserve[f.reserve.findIdx Option.isNone] <;> simp_all

theorem allCards_moveToReserve {f : FreeCell} {c : Card} {g : FreeCell}
    (h : moveToReserve f c = Except.ok g) :
    allCardsMS g = allCardsMS f + {c} ∧ (WF f → WF g) := by
  obtain ⟨hr, hg⟩ := moveToReserve_ok h
  subst hg
  refine ⟨?_, fun hwf => WF_set_reserve hwf _ _⟩
  have hlt := findIdx_none_lt hr
  have key := filterMap_set_ms f.reserve (some c) (f.reserve.findIdx Option.isNone) hlt
  rw [findIdx_none_getD hr] at key
  simp only [Option.toList, Multiset.coe_nil, add_zero, Multiset.coe_singleton] at key
  show (↑((f.reserve.set (f.reserve.findIdx Option.isNone) (some c)).filterMap id) +
      ↑f.tableau.flatten : Multiset Card) + ↑f.foundation.flatten =
    (↑(f.reserve.filterMap id) + ↑f.tableau.flatten) + ↑f.foundation.flatten + {c}
  rw [key]
  abel

theorem moveToTableau_ok {f : FreeCell} {c : Card} {i : Nat} {g : FreeCell}
    (h : moveToTableau f c i = Except.ok g) :
    canMoveToTableau f c i = true ∧
      g = { f with tableau := f.tableau.set i (c :: tableauAt f i) } := by
  rw [moveToTableau] at h
  by_cases hc : canMoveToTableau f c i = true
  · rw [if_pos hc] at h
    exact ⟨hc, (Except.ok.inj h).symm⟩
  · rw [if_neg hc] at h
    exact Except.noConfusion h

theorem allCards_consTableau {f : FreeCell} (c : Card) {i : Nat}
    (hi : i < f.tableau.length) :
    allCardsMS { f with tableau := f.tableau.set i (c :: tableauAt f i) } =
      allCardsMS f + {c} := by
  have key := flatten_set_ms f.tableau (c :: tableauAt f i) i hi
  have hpile : f.tableau.getD i [] = tableauAt f i := rfl
  rw [hpile, coe_cons_split] at key
  have key2 : (↑((f.tableau.set i (c :: tableauAt f i)).flatten) : Multiset Card) =
      ↑f.tableau.flatten + {c} := by
    have hrearr : (↑f.tableau.flatten : Multiset Card) + ({c} + ↑(tableauAt f i)) =
        (↑f.tableau.flatten + {c}) + ↑(tableauAt f i) := by rw [add_assoc]
    rw [hrearr] at key
    exact add_right_cancel key
  show (↑(f.reserve.filterMap id) +
      ↑((f.tableau.set i (c :: tableauAt f i)).flatten) : Multiset Card) +
      ↑f.foundation.flatten =
    (↑(f.reserve.filterMap id) + ↑f.tableau.flatten) + ↑f.foundation.flatten + {c}
  rw [key2]
  abel

theorem allCards_pushGroup : ∀ (cs : List Card) (f g : FreeCell) (b : Nat),
    b < f.tableau.length → pushGroup f cs b = Except.ok g →
    allCardsMS g = allCardsMS f + ↑cs ∧ f.tableau.length = g.tableau.length := by
  intro cs
  induction cs with
  | nil =>
    intro f g b _ h
    rw [pushGroup] at h
    rw [← Except.ok.inj h]
    simp
  | cons c rest ih =>
    intro f g b hb h
    rw [pushGroup] at h
    rcases hmt : moveToTableau f c b with _ | f1
    · rw [hmt] at h; exact Except.noConfusion h
    · rw [hmt] at h
      obtain ⟨_, hf1⟩ := moveToTableau_ok hmt
      have hlen : f1.tableau.length = f.tableau.length := by
        rw [hf1]
        show (f.tableau.set b (c :: tableauAt f b)).length = _
        rw [List.length_set]
      obtain ⟨hacc, hlen2⟩ := ih f1 g b (by omega) h
      constructor
      · rw [hacc, hf1, allCards_consTableau c hb, coe_cons_split]
        abel
      · omega

theorem pushGroup_WF : ∀ (cs : List Card) (f g : FreeCell) (b : Nat),
    pushGroup f cs b = Except.ok g → WF f → WF g := by
  intro cs
  induction cs with
  | nil =>
    intro f g b h hwf
    rw [pushGroup] at h
    rw [← Except.ok.inj h]
    exact hwf
  | cons c rest ih =>
    intro f g b h hwf
    rw [pushGroup] at h
    rcases hmt : moveToTableau f c b with _ | f1
    · rw [hmt] at h; exact Except.noConfusion h
    · rw [hmt] at h
      obtain ⟨_, hf1⟩ := moveToTableau_ok hmt
      exact ih f1 g b h (hf1 ▸ WF_set_tableau hwf _ _)

theorem allCards_moveTableauGroup {f g : FreeCell} {a b n : Nat}
    (hb : b < f.tableau.length) (h : moveTableauGroup f a b n = Except.ok g) :
    allCardsMS g = allCardsMS f ∧ (WF f → WF g) := by
  rw [moveTableauGroup] at h
  by_cases hn : n = 0
  · rw [if_pos hn] at h; exact Except.noConfusion h
  rw [if_neg hn] at h
  rcases hcap : moveCapacity f a b with _ | cap
  · rw [hcap] at h; exact Except.noConfusion h
  rw [hcap] at h
  have h' : (if cap < n then Except.error (MoveErr.invalidMove, f)
      else pushGroup { f with tableau := f.tableau.set a ((tableauAt f a).drop n) }
        ((tableauAt f a).take n).reverse b) = Except.ok g := h
  by_cases hlt : cap < n
  · rw [if_pos hlt] at h'; exact Except.noConfusion h'
  rw [if_neg hlt] at h'
  have ha : tableauAt f a ≠ [] := by
    intro he
    rw [moveCapacity, if_pos he] at hcap
    exact Except.noConfusion hcap
  have halt : a < f.tableau.length := by
    rcases ht : tableauAt f a with _ | ⟨c, r⟩
    · exact absurd ht ha
    · exact getD_cons_lt_length _ _ _ _ ht
  have hb1 : b < (f.tableau.set a ((tableauAt f a).drop n)).length := by
    rw [List.length_set]; exact hb
  obtain ⟨hacc, _⟩ := allCards_pushGroup ((tableauAt f a).take n).reverse
    { f with tableau := f.tableau.set a ((tableauAt f a).drop n) } g b hb1 h'
  have hta : ((tableauAt f a : List Card) : Multiset Card) =
      ↑((tableauAt f a).take n) + ↑((tableauAt f a).drop n) := by
    conv_lhs => rw [← List.take_append_drop n (tableauAt f a)]
    rfl
  have key := flatten_set_ms f.tableau ((tableauAt f a).drop n) a halt
  have hpile : f.tableau.getD a [] = tableauAt f a := rfl
  rw [hpile, hta] at key
  have key2 : (↑((f.tableau.set a ((tableauAt f a).drop n)).flatten) : Multiset Card) +
      ↑((tableauAt f a).take n) = ↑f.tableau.flatten := by
    have hassoc : (↑((f.tableau.set a ((tableauAt f a).drop n)).flatten) : Multiset Card) +
        ↑((tableauAt f a).take n) + ↑((tableauAt f a).drop n) =
        ↑f.tableau.flatten + ↑((tableauAt f a).drop n) := by
      rw [add_assoc]; exact key
    exact add_right_cancel hassoc
  constructor
  · rw [hacc]
    have hrev : ((((tableauAt f a).take n).reverse : List Card) : Multiset Card) =
        ↑((tableauAt f a).take n) := Multiset.coe_reverse _
    rw [hrev]
    show (↑(f.reserve.filterMap id) +
        ↑((f.tableau.set a ((tableauAt f a).drop n)).flatten) : Multiset Card) +
        ↑f.foundation.flatten + ↑((tableauAt f a).take n) =
      (↑(f.reserve.filterMap id) + ↑f.tableau.flatten) + ↑f.foundation.flatten
    rw [← key2]
    abel
  · intro hwf
    exact pushGroup_WF _ _ _ _ h' (WF_set_tableau hwf _ _)

theorem moveFromReserve_ok {f : FreeCell} {i : Nat} {c : Card} {f1 : FreeCell}
    (h : moveFromReserve f i = Except.ok (c, f1)) :
    reserveAt f i = some c ∧ f1 = { f with reserve := f.reserve.set i none } := by
  rw [moveFromReserve] at h
  rcases hr : reserveAt f i with _ | d
  · rw [hr] at h; exact Except.noConfusion h
  · rw [hr] at h
    have hp := Except.ok.inj h
    rw [Prod.mk.injEq] at hp
    exact ⟨by rw [hp.1], hp.2.symm⟩

theorem moveToFoundation_ok {f : FreeCell} {c : Card} {g : FreeCell}
    (h : moveToFoundation f c = Except.ok g) :
    canMoveToFoundation f c = true ∧ g = pushFoundation f c := by
  rw [moveToFoundation] at h
  by_cases hc : canMoveToFoundation f c = true
  · rw [if_pos hc] at h
    exact ⟨hc, (Except.ok.inj h).symm⟩
  · rw [if_neg hc] at h
    exact Except.noConfusion h

theorem allCards_removeReserve {f : FreeCell} {i : Nat} {c : Card}
    (h : reserveAt f i = some c) :
    allCardsMS { f with reserve := f.reserve.set i none } + {c} = allCardsMS f := by
  have hpos : posCard f (.res i) = some c := h
  exact allCards_removePos hpos

theorem allCards_popTableau {f : FreeCell} {i : Nat} {c : Card} {rest : List Card}
    (ht : tableauAt f i = c :: rest) :
    allCardsMS { f with tableau := f.tableau.set i rest } + {c} = allCardsMS f := by
  have hpos : posCard f (.tab i) = some c := by rw [posCard, ht]; rfl
  have hrm := allCards_removePos hpos
  have hrp : removePos f (.tab i) = { f with tableau := f.tableau.set i rest } := by
    show { f with tableau := f.tableau.set i (tableauAt f i).tail } = _
    rw [ht]
    rfl
  rw [hrp] at hrm
  exact hrm

/-! ### The game-level operations

The operations a player can complete, as composed and validated by
`FreeCellGame.handle_action` / `tableau_move` in `freecell_game.py` (each
checks its slot indices against `RESERVE_SLOTS` / `TABLEAU_SLOTS` before
touching the field), plus the sweeps run by the game loop. -/

inductive GameOp where
  | resToFoundation (i : Nat)
  | resToTableau (i j : Nat)
  | tabToReserve (i : Nat)
  | tabToFoundation (i : Nat)
  | tabGroupMove (a b n : Nat)
  | sweepOp
  | sweepStepOp (n : Int)

/-- Run one operation; `none` when it does not complete successfully. -/
def applyOp (op : GameOp) (f : FreeCell) : Option FreeCell :=
  match op with
  | .resToFoundation i =>
    if i < 4 then
      match moveFromReserve f i with
      | .ok (c, f1) =>
        match moveToFoundation f1 c with
        | .ok g => some g
        | .error _ => none
      | .error _ => none
    else none
  | .resToTableau i j =>
    if i < 4 ∧ j < 8 then
      match moveFromReserve f i with
      | .ok (c, f1) =>
        match moveToTableau f1 c j with
        | .ok g => some g
        | .error _ => none
      | .error _ => none
    else none
  | .tabToReserve i =>
    if i < 8 then
      match tableauAt f i with
      | c :: rest =>
        match moveToReserve { f with tableau := f.tableau.set i rest } c with
        | .ok g => some g
        | .error _ => none
      | [] => none
    else none
  | .tabToFoundation i =>
    if i < 8 then
      match tableauAt f i with
      | c :: rest =>
        match moveToFoundation { f with tableau := f.tableau.set i rest } c with
        | .ok g => some g
        | .error _ => none
      | [] => none
    else none
  | .tabGroupMove a b n =>
    if a < 8 ∧ b < 8 ∧ a ≠ b then
      match moveTableauGroup f a b n with
      | .ok g => some g
      | .error _ => none
    else none
  | .sweepOp => some (sweep f)
  | .sweepStepOp n => some (sweepStep n f).1

def applyOps : List GameOp → FreeCell → Option FreeCell
  | [], f => some f
  | op :: rest, f =>
    match applyOp op f with
    | some g => applyOps rest g
    | none => none

theorem applyOp_ok {op : GameOp} {f g : FreeCell} (hwf : WF f)
    (h : applyOp op f = some g) : allCardsMS g = allCardsMS f ∧ WF g := by
  cases op with
  | resToFoundation i =>
    rw [applyOp] at h
    by_cases hi : i < 4
    · rw [if_pos hi] at h
      rcases hmfr : moveFromReserve f i with _ | ⟨c, f1⟩
      · rw [hmfr] at h; exact Option.noConfusion h
      · rw [hmfr] at h
        have h' : (match moveToFoundation f1 c with
          | .ok g => some g | .error _ => none) = some g := h
        rcases hmtf : moveToFoundation f1 c with _ | g2
        · rw [hmtf] at h'; exact Option.noConfusion h'
        · rw [hmtf] at h'
          obtain ⟨hres, hf1⟩ := moveFromReserve_ok hmfr
          obtain ⟨_, hg2⟩ := moveToFoundation_ok hmtf
          have hgp : g = pushFoundation f1 c := (Option.some.inj h').symm.trans hg2
          have hwf1 : WF f1 := hf1 ▸ WF_set_reserve hwf i none
          constructor
          · rw [hgp, allCards_pushFoundation c hwf1.2.1, hf1]
            exact allCards_removeReserve hres
          · rw [hgp]
            exact WF_pushFoundation hwf1 c
    · rw [if_neg hi] at h; exact Option.noConfusion h
  | resToTableau i j =>
    rw [applyOp] at h
    by_cases hij : i < 4 ∧ j < 8
    · rw [if_pos hij] at h
      rcases hmfr : moveFromReserve f i with _ | ⟨c, f1⟩
      · rw [hmfr] at h; exact Option.noConfusion h
      · rw [hmfr] at h
        have h' : (match moveToTableau f1 c j with
          | .ok g => some g | .error _ => none) = some g := h
        rcases hmtt : moveToTableau f1 c j with _ | g2
        · rw [hmtt] at h'; exact Option.noConfusion h'
        · rw [hmtt] at h'
          obtain ⟨hres, hf1⟩ := moveFromReserve_ok hmfr
          obtain ⟨_, hg2⟩ := moveToTableau_ok hmtt
          have hgp : g = { f1 with tableau := f1.tableau.set j (c :: tableauAt f1 j) } :=
            (Option.some.inj h').symm.trans hg2
          have hwf1 : WF f1 := hf1 ▸ WF_set_reserve hwf i none
          have hj : j < f1.tableau.length := by rw [hwf1.2.2]; exact hij.2
          constructor
          · rw [hgp, allCards_consTableau c hj, hf1]
            exact allCards_removeReserve hres
          · rw [hgp]
            exact WF_set_tableau hwf1 _ _
    · rw [if_neg hij] at h; exact Option.noConfusion h
  | tabToReserve i =>
    rw [applyOp] at h
    by_cases hi : i < 8
    · rw [if_pos hi] at h
      rcases ht : tableauAt f i with _ | ⟨c, rest⟩
      · rw [ht] at h; exact Option.noConfusion h
      · rw [ht] at h
        have h' : (match moveToReserve { f with tableau := f.tableau.set i rest } c with
          | .ok g => some g | .error _ => none) = some g := h
        rcases hmv : moveToReserve { f with tableau := f.tableau.set i rest } c with _ | g2
        · rw [hmv] at h'; exact Option.noConfusion h'
        · rw [hmv] at h'
          have hgp : g = g2 := (Option.some.inj h').symm
          obtain ⟨hacc, hwfi⟩ := allCards_moveToReserve hmv
          constructor
          · rw [hgp, hacc]
            exact allCards_popTableau ht
          · rw [hgp]
            exact hwfi (WF_set_tableau hwf _ _)
    · rw [if_neg hi] at h; exact Option.noConfusion h
  | tabToFoundation i =>
    rw [applyOp] at h
    by_cases hi : i < 8
    · rw [if_pos hi] at h
      rcases ht : tableauAt f i with _ | ⟨c, rest⟩
      · rw [ht] at h; exact Option.noConfusion h
      · rw [ht] at h
        have h' : (match moveToFoundation { f with tableau := f.tableau.set i rest } c with
          | .ok g => some g | .error _ => none) = some g := h
        rcases hmtf : moveToFoundation { f with tableau := f.tableau.set i rest } c with
          _ | g2
        · rw [hmtf] at h'; exact Option.noConfusion h'
        · rw [hmtf] at h'
          obtain ⟨_, hg2⟩ := moveToFoundation_ok hmtf
          have hgp : g = pushFoundation { f with tableau := f.tableau.set i rest } c :=
            (Option.some.inj h').symm.trans hg2
          have hwfp : WF { f with tableau := f.tableau.set i rest } :=
            WF_set_tableau hwf _ _
          constructor
          · rw [hgp, allCards_pushFoundation c hwfp.2.1]
            exact allCards_popTableau ht
          · rw [hgp]
            exact WF_pushFoundation hwfp c
    · rw [if_neg hi] at h; exact Option.noConfusion h
  | tabGroupMove a b n =>
    rw [applyOp] at h
    by_cases hab : a < 8 ∧ b < 8 ∧ a ≠ b
    · rw [if_pos hab] at h
      rcases hmtg : moveTableauGroup f a b n with _ | g2
      · rw [hmtg] at h; exact Option.noConfusion h
      · rw [hmtg] at h
        have hgp : g = g2 := (Option.some.inj h).symm
        have hb : b < f.tableau.length := by rw [hwf.2.2]; exact hab.2.1
        obtain ⟨hacc, hwfi⟩ := allCards_moveTableauGroup hb hmtg
        exact ⟨by rw [hgp, hacc], by rw [hgp]; exact hwfi hwf⟩
    · rw [if_neg hab] at h; exact Option.noConfusion h
  | sweepOp =>
    rw [applyOp] at h
    have hgp : g = sweep f := (Option.some.inj h).symm
    obtain ⟨hm, _⟩ := sweep_spec (cardCount f) f (le_refl _)
    obtain ⟨hacc, hwfg⟩ := allCards_moves hm hwf
    exact ⟨by rw [hgp]; exact hacc, by rw [hgp]; exact hwfg⟩
  | sweepStepOp n =>
    rw [applyOp] at h
    have hgp : g = (sweepStep n f).1 := (Option.some.inj h).symm
    obtain ⟨hacc, hwfg⟩ := allCards_moves (sweepStep_moves n f) hwf
    exact ⟨by rw [hgp]; exact hacc, by rw [hgp]; exact hwfg⟩

theorem applyOps_inv : ∀ (ops : List GameOp) (f g : FreeCell), WF f →
    applyOps ops f = some g → allCardsMS g = allCardsMS f ∧ WF g := by
  intro ops
  induction ops with
  | nil =>
    intro f g hwf h
    rw [applyOps] at h
    rw [← Option.some.inj h]
    exact ⟨rfl, hwf⟩
  | cons op rest ih =>
    intro f g hwf h
    rw [applyOps] at h
    rcases hop : applyOp op f with _ | f1
    · rw [hop] at h; exact Option.noConfusion h
    · rw [hop] at h
      obtain ⟨hacc1, hwf1⟩ := applyOp_ok hwf hop
      obtain ⟨hacc2, hwf2⟩ := ih f1 g hwf1 h
      exact ⟨hacc2.trans hacc1, hwf2⟩

/-! ### A freshly dealt field holds exactly the deck -/

theorem flatten_set_cons_ms {α : Type} (l : List (List α)) (c : α) (i : Nat)
    (h : i < l.length) :
    (↑((l.set i (c :: l.getD i [])).flatten) : Multiset α) = ↑l.flatten + {c} := by
  have key := flatten_set_ms l (c :: l.getD i []) i h
  rw [coe_cons_split] at key
  have hassoc : (↑l.flatten : Multiset α) + ({c} + ↑(l.getD i [])) =
      (↑l.flatten + {c}) + ↑(l.getD i []) := by rw [add_assoc]
  rw [hassoc] at key
  exact add_right_cancel key

theorem fillTableau_length : ∀ (deck : List Card) (t : List (List Card)) (i : Nat),
    (fillTableau t deck i).length = t.length := by
  intro deck
  induction deck with
  | nil => intro t i; rfl
  | cons c rest ih =>
    intro t i
    rw [fillTableau, ih, List.length_set]

theorem fillTableau_ms : ∀ (deck : List Card) (t : List (List Card)) (i : Nat),
    i < t.length →
    (↑(fillTableau t deck i).flatten : Multiset Card) = ↑t.flatten + ↑deck := by
  intro deck
  induction deck with
  | nil =>
    intro t i _
    simp [fillTableau]
  | cons c rest ih =>
    intro t i hi
    rw [fillTableau]
    have hlen : (t.set i (c :: t.getD i [])).length = t.length := List.length_set ..
    have hpos : 0 < t.length := by omega
    have hnext : (i + 1) % t.length < (t.set i (c :: t.getD i [])).length := by
      rw [hlen]
      exact Nat.mod_lt _ hpos
    rw [ih _ _ hnext, flatten_set_cons_ms t c i hi, coe_cons_split]
    abel

theorem WF_initField (deck : List Card) : WF (initField deck) := by
  refine ⟨rfl, rfl, ?_⟩
  show (fillTableau (List.replicate 8 []) deck 0).length = 8
  rw [fillTableau_length]
  rfl

theorem allCards_initField (deck : List Card) :
    allCardsMS (initField deck) = ↑deck := by
  show (↑((List.replicate 4 (none : Option Card)).filterMap id) +
      ↑(fillTableau (List.replicate 8 []) deck 0).flatten : Multiset Card) +
      ↑(List.replicate 4 ([] : List Card)).flatten = ↑deck
  rw [fillTableau_ms deck (List.replicate 8 []) 0 (by simp)]
  simp

/-! ### C3 — the conservation claim -/

/-- C3: starting from a Field dealt from a full 52-card deck, after any
sequence of successfully completed operations (reserve moves, foundation
moves, tableau group moves, sweeps) the multiset of all cards in
reserve + foundations + tableau is exactly the full deck: no card is
duplicated and none is lost. -/
theorem claim_C3 (deck : List Card) (ops : List GameOp) (g : FreeCell)
    (hperm : deck.Perm makeDeck) (h : applyOps ops (initField deck) = some g) :
    allCardsMS g = ↑makeDeck ∧ (allCardsMS g).Nodup := by
  obtain ⟨heq, _⟩ := applyOps_inv ops _ g (WF_initField deck) h
  have hdeck : (↑deck : Multiset Card) = ↑makeDeck := Multiset.coe_eq_coe.mpr hperm
  have hmain : allCardsMS g = ↑makeDeck := by
    rw [heq, allCards_initField, hdeck]
  refine ⟨hmain, ?_⟩
  rw [hmain]
  exact Multiset.coe_nodup.mpr (by decide)

/-- Witness for C3: the freshly dealt field itself (empty operation list). -/
theorem claim_C3_witness :
    allCardsMS (initField makeDeck) = ↑makeDeck ∧
      (allCardsMS (initField makeDeck)).Nodup :=
  claim_C3 makeDeck [] (initField makeDeck) (List.Perm.refl _) rfl

/-! ## The game driver's undo/redo history (`freecell_game.py`)

Python object semantics matter for C6–C8: `self.undo_list` stores
*references* to `FreeCell` objects, and `FreeCellGame.undo` assigns
`self.freecell = self.undo_list[self.undo_index]`, aliasing the live object
into the history.  The model therefore carries an explicit object store:
`store` maps object ids to field values, `live` is the id held by
`self.freecell`, `undoList` holds the ids in `self.undo_list` and
`undoIndex` is `self.undo_index`. -/

structure GameState where
  store : List FreeCell
  live : Nat
  undoList : List Nat
  undoIndex : Option Nat
deriving DecidableEq, Repr

def liveField (g : GameState) : FreeCell := g.store.getD g.live default

/-- The snapshot *values* currently held by the history. -/
def snapshots (g : GameState) : List FreeCell :=
  g.undoList.map fun r => g.store.getD r default

/-- `FreeCellGame.copy_state`: `self.freecell.copy()` allocates a fresh deep
copy of the live field and hands back the new object (its id). -/
def copyState (g : GameState) : GameState × Nat :=
  ({ g with store := g.store ++ [liveField g] }, g.store.length)

/-- `FreeCellGame.push_undo(state)`: if a cursor is set, `del
self.undo_list[self.undo_index:]` then clear it; append the snapshot. -/
def pushUndo (g : GameState) (r : Nat) : GameState :=
  match g.undoIndex with
  | some i => { g with undoList := g.undoList.take i ++ [r], undoIndex := none }
  | none => { g with undoList := g.undoList ++ [r] }

/-- `FreeCellGame.undo`. -/
def undoGame (g : GameState) : GameState :=
  if g.undoList = [] then g
  else
    match g.undoIndex with
    | none =>
      { g with undoIndex := some (g.undoList.length - 1)
               undoList := g.undoList ++ [g.live]
               live := (g.undoList ++ [g.live]).getD (g.undoList.length - 1) 0 }
    | some i =>
      if i ≠ 0 then
        { g with undoIndex := some (i - 1), live := g.undoList.getD (i - 1) 0 }
      else g

/-- `FreeCellGame.redo`: increment the cursor; at the end of the list pop the
live capture back out, otherwise alias the snapshot at the cursor. -/
def redoGame (g : GameState) : GameState :=
  match g.undoIndex with
  | none => g
  | some i =>
    if i + 1 = g.undoList.length then
      { g with live := g.undoList.getD (g.undoList.length - 1) 0
               undoList := g.undoList.dropLast
               undoIndex := none }
    else
      { g with live := g.undoList.getD (i + 1) 0, undoIndex := some (i + 1) }

/-- In-place mutation of the live `FreeCell` object (as the sweeps run by
`before_tick` do): the store cell holding the live id is rewritten. -/
def mutateLive (g : GameState) (m : FreeCell → FreeCell) : GameState :=
  { g with store := g.store.set g.live (m (liveField g)) }

theorem getD_append_length {α : Type} (l : List α) (x d : α) :
    (l ++ [x]).getD l.length d = x := by
  induction l with
  | nil => rfl
  | cons a t ih => simpa using ih

/-! ### C6 — push_undo with a cursor set -/

/-- Four distinguishable snapshot values. -/
def snapA : FreeCell := ⟨[some ⟨.club, 1⟩], [], []⟩
def snapB : FreeCell := ⟨[some ⟨.club, 2⟩], [], []⟩
def snapC : FreeCell := ⟨[some ⟨.club, 3⟩], [], []⟩
def snapD : FreeCell := ⟨[some ⟨.club, 4⟩], [], []⟩

/-- History holding snapshots A, B, C with the cursor at index 1. -/
def c6state : GameState :=
  { store := [snapA, snapB, snapC, snapD], live := 3, undoList := [0, 1, 2]
    undoIndex := some 1 }

/-- Counterexample to C6: with the cursor at index 1, `push_undo` does *not*
keep the snapshots at indices 0 through 1 — `del undo_list[1:]` also discards
the snapshot at the cursor itself, keeping only index 0. -/
theorem claim_C6_cex :
    snapshots (pushUndo c6state 3) ≠
      (snapshots c6state).take (1 + 1) ++ [c6state.store.getD 3 default] ∧
    snapshots (pushUndo c6state 3) = [snapA, snapD] := by
  constructor
  · decide
  · decide

/-- C6 (amended): when the cursor is set to `i`, `push_undo` truncates the
history to the snapshots at indices 0 through `i - 1` (discarding the one at
the cursor as well), clears the cursor, and appends the new snapshot. -/
theorem claim_C6_amended (g : GameState) (r : Nat) (i : Nat)
    (h : g.undoIndex = some i) :
    (pushUndo g r).undoList = g.undoList.take i ++ [r] ∧
    (pushUndo g r).undoIndex = none ∧
    snapshots (pushUndo g r) = (snapshots g).take i ++ [g.store.getD r default] := by
  have hpu : pushUndo g r =
      { g with undoList := g.undoList.take i ++ [r], undoIndex := none } := by
    rw [pushUndo, h]
  rw [hpu]
  refine ⟨rfl, rfl, ?_⟩
  show (g.undoList.take i ++ [r]).map (fun s => g.store.getD s default) =
    (g.undoList.map fun s => g.store.getD s default).take i ++ [g.store.getD r default]
  rw [List.map_append, List.map_take]
  rfl

/-- Witness for the amended C6 at the concrete history. -/
theorem claim_C6_amended_witness :
    (pushUndo c6state 3).undoList = c6state.undoList.take 1 ++ [3] ∧
    (pushUndo c6state 3).undoIndex = none ∧
    snapshots (pushUndo c6state 3) =
      (snapshots c6state).take 1 ++ [c6state.store.getD 3 default] :=
  claim_C6_amended c6state 3 1 rfl

/-! ### C7 — snapshots vs the live field -/

/-- A field with a sweepable ace on the tableau. -/
def aceField : FreeCell :=
  { reserve := List.replicate 4 none
    foundation := List.replicate 4 []
    tableau := [[⟨.spade, 1⟩], [], [], [], [], [], [], []] }

def emptyField : FreeCell :=
  { reserve := List.replicate 4 none
    foundation := List.replicate 4 []
    tableau := List.replicate 8 [] }

/-- A game holding one pushed snapshot (the ace position) and a live field. -/
def c7state : GameState :=
  { store := [aceField, emptyField], live := 1, undoList := [0], undoIndex := none }

/-- Counterexample to C7: after `undo()` the live field *is* the snapshot at
the cursor (`self.freecell = self.undo_list[self.undo_index]`), so the sweep
the game runs on the next tick (`sweep_step(3)` from `before_tick`) mutates
the stored snapshot: the history observably changes. -/
theorem claim_C7_cex :
    snapshots (mutateLive (undoGame c7state) (fun fl => (sweepStep 3 fl).1)) ≠
      snapshots (undoGame c7state) := by
  decide

/-- C7 (amended): every snapshot handed to `push_undo` is an independent deep
copy at push time, and mutating the live field leaves all stored snapshots
unchanged *as long as the live object is not aliased into the history* (the
aliasing that `undo()` creates is exactly the exception). -/
theorem claim_C7_amended (g : GameState) (m : FreeCell → FreeCell)
    (h : g.live ∉ g.undoList) : snapshots (mutateLive g m) = snapshots g := by
  show g.undoList.map (fun r => (g.store.set g.live (m (liveField g))).getD r default) =
    g.undoList.map fun r => g.store.getD r default
  apply List.map_congr_left
  intro r hr
  have hne : g.live ≠ r := fun he => h (he ▸ hr)
  exact getD_set_ne _ _ _ _ _ hne

/-- Witness for the amended C7: mutating the live field of the concrete game
(before any undo) leaves its snapshot list untouched. -/
theorem claim_C7_amended_witness :
    snapshots (mutateLive c7state (fun fl => (sweepStep 3 fl).1)) = snapshots c7state :=
  claim_C7_amended c7state (fun fl => (sweepStep 3 fl).1) (by decide)

/-! ### C8 — undo immediately followed by redo -/

/-- C8: with a non-empty history and no cursor set, `undo()` then `redo()`
restores a live field structurally identical to the live field before the
`undo()` (in fact the very same object is re-installed). -/
theorem claim_C8 (g : GameState) (hne : g.undoList ≠ []) (hidx : g.undoIndex = none) :
    liveField (redoGame (undoGame g)) = liveField g := by
  have hlen : 0 < g.undoList.length := List.length_pos.mpr hne
  have hu : undoGame g =
      { g with undoIndex := some (g.undoList.length - 1)
               undoList := g.undoList ++ [g.live]
               live := (g.undoList ++ [g.live]).getD (g.undoList.length - 1) 0 } := by
    rw [undoGame, if_neg hne, hidx]
  rw [hu]
  rw [redoGame]
  have hcond : ¬ (g.undoList.length - 1 + 1 = (g.undoList ++ [g.live]).length) := by
    rw [List.length_append]
    simp only [List.length_cons, List.length_nil]
    omega
  show liveField (if g.undoList.length - 1 + 1 = (g.undoList ++ [g.live]).length
    then _ else _) = _
  rw [if_neg hcond]
  show (g.store.getD ((g.undoList ++ [g.live]).getD (g.undoList.length - 1 + 1) 0) default) =
    liveField g
  have hidx2 : g.undoList.length - 1 + 1 = g.undoList.length := by omega
  rw [hidx2, getD_append_length]
  rfl

/-- A game with two snapshots in the history and a distinct live field. -/
def c8state : GameState :=
  { store := [snapA, snapB, snapC], live := 2, undoList := [0, 1], undoIndex := none }

/-- Witness for C8 at the concrete game. -/
theorem claim_C8_witness :
    liveField (redoGame (undoGame c8state)) = liveField c8state :=
  claim_C8 c8state (by decide) rfl
